import Mathlib

/-!
Verification of the er-fog-vizu exploration engine.

This file gives a shallow embedding of the discovery / propagation /
undiscovery state machine of the repository (exploration module, state
module, and the placeholder-synthesis part of the graph renderer) and
proves the documented properties about it.

Modelling conventions:
- JS strings are Lean strings; JS Sets of strings are Lean lists used as
  finite sets (membership tests mirror Set.has, insertion mirrors Set.add
  keeping first-insertion order, deletion mirrors Set.delete).
- The JS Map of tags is an association list.
- null / undefined arguments are Option.none.
- The recursion of discoverWithPreexisting is modelled with an explicit
  fuel parameter; the engine always runs it with fuel larger than the
  number of link endpoints, which the lemmas show is enough for the fuel
  never to run out.
-/

namespace ErFogVizu

/-- The fixed game-start zone (state module constant START_NODE). -/
def START_NODE : String := "Chapel of Anticipation"

/-- A graph edge. source / target are zone ids (the JS code normalizes
object endpoints back to ids, so ids are the faithful representation).
type is the JS string tag, either preexisting or random. -/
structure Link where
  source : String
  target : String
  type : String
  oneWay : Bool
  isInherentlyOneWay : Bool
deriving DecidableEq, Repr

/-- A loaded graph: zone ids plus links (graphData). -/
structure GraphData where
  nodes : List String
  links : List Link
deriving DecidableEq, Repr

/-- The mutable exploration state (state module explorationState). -/
structure ExplorationState where
  discovered : List String
  discoveredLinks : List String
  tags : List (String × List String)
deriving DecidableEq, Repr

/-- The initial empty state built by initExplorationState before the
start zone is discovered. -/
def emptyExplorationState : ExplorationState := ⟨[], [], []⟩

/-- state.js makeLinkId. -/
def makeLinkId (sourceId targetId : String) : String :=
  sourceId ++ "|" ++ targetId

/-- Set.add: append when not already present (JS Sets keep first
insertion, adding an existing element is a no-op). -/
def addToSet (xs : List String) (x : String) : List String :=
  if x ∈ xs then xs else xs ++ [x]

/-- state.js discoverNode (the membership guard of the JS code is
equivalent to the add-if-absent semantics of addToSet). -/
def discoverNode (st : ExplorationState) (nodeId : String) : ExplorationState :=
  { st with discovered := addToSet st.discovered nodeId }

/-- state.js discoverLink: record the forward key, and the reverse key as
well when bidirectional. -/
def discoverLink (st : ExplorationState) (sourceId targetId : String)
    (bidirectional : Bool) : ExplorationState :=
  let dl := addToSet st.discoveredLinks (makeLinkId sourceId targetId)
  let dl := if bidirectional then addToSet dl (makeLinkId targetId sourceId) else dl
  { st with discoveredLinks := dl }

/-- state.js undiscoverNode: when present, remove the zone from
discovered and drop its tags entry; otherwise do nothing. -/
def undiscoverNode (st : ExplorationState) (nodeId : String) : ExplorationState :=
  if nodeId ∈ st.discovered then
    { st with
      discovered := st.discovered.filter (fun x => decide (x ≠ nodeId)),
      tags := st.tags.filter (fun p => decide (p.1 ≠ nodeId)) }
  else st

/-- Splitting a character list at every occurrence of a separator
character; models the JS String.split used on link keys. -/
def splitChar (c : Char) : List Char → List (List Char)
  | [] => [[]]
  | x :: xs =>
    let rest := splitChar c xs
    if x = c then [] :: rest
    else (x :: rest.headD []) :: rest.tail

/-- The JS split of a link key on the bar character. -/
def jsSplitBar (k : String) : List String :=
  (splitChar '|' k.data).map String.mk

/-- Whether a stored link key mentions the given node id as its first or
second component (the destructuring in undiscoverLinksForNode: the JS
target component is undefined when the split has one part, and undefined
never equals a string). -/
def keyInvolves (k nodeId : String) : Bool :=
  decide ((jsSplitBar k).headD "" = nodeId) ||
    decide ((jsSplitBar k)[1]? = some nodeId)

/-- state.js undiscoverLinksForNode: drop every discovered-link key whose
source or target component is the node. -/
def undiscoverLinksForNode (st : ExplorationState) (nodeId : String) : ExplorationState :=
  { st with discoveredLinks :=
      st.discoveredLinks.filter (fun k => !(keyInvolves k nodeId)) }

/-- state.js getNodeTags: the stored list, or empty when absent. -/
def getNodeTags (st : ExplorationState) (nodeId : String) : List String :=
  (List.lookup nodeId st.tags).getD []

/-- exploration.js computeOneWayLinks: preexisting links are one-way
exactly when no reversed pair occurs in the link list; random links are
one-way exactly when flagged as inherently one-way. -/
def computeOneWayLinks (links : List Link) : List Link :=
  if links.isEmpty then links
  else
    links.map (fun l =>
      { l with oneWay :=
          if l.type = "random" then l.isInherentlyOneWay
          else !(decide (makeLinkId l.target l.source ∈
            links.map (fun r => makeLinkId r.source r.target))) })

/-- Per-link degree contribution of buildNodeConnectionsMap: the forward
direction increments both endpoint entries (the target only when not a
self loop), and a bidirectional non-self-loop link increments both
again for the reverse direction. An endpoint contributes only when its
connections entry exists, i.e. when it occurs in the node list. -/
def linkDegree (n : String) (nodes : List String) (l : Link) : Nat :=
  (if l.source = n ∧ l.source ∈ nodes then 1 else 0) +
  (if l.target = n ∧ l.target ∈ nodes ∧ ¬(l.source = l.target) then 1 else 0) +
  (if l.oneWay = false ∧ ¬(l.source = l.target) then
    (if l.target = n ∧ l.target ∈ nodes then 1 else 0) +
      (if l.source = n ∧ l.source ∈ nodes then 1 else 0)
   else 0)

/-- Total degree of a zone as accumulated by buildNodeConnectionsMap. -/
def nodeDegree (g : GraphData) (n : String) : Nat :=
  g.links.foldl (fun d l => d + linkDegree n g.nodes l) 0

/-- renderGraph hub marking: a zone is a hub when its accumulated degree
is at least three. -/
def isHub (g : GraphData) (n : String) : Bool :=
  decide (3 ≤ nodeDegree g n)

/-- The bidirectionality test of discoverWithPreexisting for the link
used to arrive: absent viaLink counts as bidirectional. -/
def viaBidirectional : Option Link → Bool
  | none => true
  | some l => !l.oneWay

/-- Entry link recording of discoverWithPreexisting: a present, nonempty
fromNodeId (JS truthiness of the string) records the incoming link,
bidirectionally unless the viaLink is one-way. -/
def recordFromLink (st : ExplorationState) (areaId : String)
    (fromNodeId : Option String) (viaLink : Option Link) : ExplorationState :=
  match fromNodeId with
  | none => st
  | some f => if f = "" then st else discoverLink st f areaId (viaBidirectional viaLink)

/-- One iteration of the link scan inside discoverWithPreexisting (and,
verbatim, inside propagatePreexistingDiscoveries): follow a preexisting
link away from areaId, recursing into an undiscovered far end and merely
recording the link when the far end is already discovered. The recursive
call is abstracted as rec so the same scan serves both callers. -/
def discoverStep
    (rec : String → Option String → Option Link → ExplorationState → ExplorationState)
    (areaId : String) (link : Link) (st : ExplorationState) : ExplorationState :=
  if link.type ≠ "preexisting" then st
  else if link.source = areaId then
    (if link.target ∉ st.discovered then rec link.target (some areaId) (some link) st
     else discoverLink st areaId link.target (!link.oneWay))
  else if link.target = areaId ∧ link.oneWay = false then
    (if link.source ∉ st.discovered then rec link.source (some areaId) (some link) st
     else discoverLink st areaId link.source true)
  else st

/-- The forEach over graphData.links inside discoverWithPreexisting,
threading the mutable exploration state left to right. -/
def processLinks
    (rec : String → Option String → Option Link → ExplorationState → ExplorationState)
    (areaId : String) : List Link → ExplorationState → ExplorationState
  | [], st => st
  | link :: rest, st => processLinks rec areaId rest (discoverStep rec areaId link st)

/-- exploration module discoverWithPreexisting, with a fuel parameter
bounding the recursion depth (the JS recursion always terminates because
every nested call discovers a fresh link endpoint first; lemmas below
show any fuel above the endpoint count behaves identically). -/
def discoverWithPreexisting (g : GraphData) :
    Nat → String → Option String → Option Link → ExplorationState → ExplorationState
  | 0, _, _, _, st => st
  | fuel + 1, areaId, fromNodeId, viaLink, st =>
    let st1 := recordFromLink st areaId fromNodeId viaLink
    if areaId ∈ st.discovered then st1
    else processLinks (discoverWithPreexisting g fuel) areaId g.links (discoverNode st1 areaId)

/-- Every endpoint mentioned by the link list. -/
def linkEndpoints (links : List Link) : List String :=
  links.foldr (fun l acc => l.source :: l.target :: acc) []

/-- Fuel that dominates the recursion depth of discoverWithPreexisting. -/
def discoveryFuel (g : GraphData) : Nat := (linkEndpoints g.links).length + 1

/-- exploration module discoverArea (persistence and render events are
outside the state machine and are omitted). -/
def discoverArea (g : GraphData) (areaId : String) (fromNodeId : Option String)
    (viaLink : Option Link) (st : ExplorationState) : ExplorationState :=
  discoverWithPreexisting g (discoveryFuel g) areaId fromNodeId viaLink st

/-- exploration module initExplorationState: fresh empty state, then
discover the start zone and propagate through preexisting links. -/
def initExplorationState (g : GraphData) : ExplorationState :=
  discoverArea g START_NODE none none emptyExplorationState

/-- exploration module resetExplorationState: clear storage and
re-initialize; on the state itself this is exactly initExplorationState. -/
def resetExplorationState (g : GraphData) : ExplorationState :=
  initExplorationState g

/-- The inner links.forEach of propagatePreexistingDiscoveries for one
already-known area: textually the same branch structure as the scan in
discoverWithPreexisting. -/
def propagateOne (g : GraphData) (areaId : String) (st : ExplorationState) : ExplorationState :=
  processLinks (discoverWithPreexisting g (discoveryFuel g)) areaId g.links st

/-- The outer toPropagate.forEach of propagatePreexistingDiscoveries. -/
def propagateList (g : GraphData) : List String → ExplorationState → ExplorationState
  | [], st => st
  | a :: rest, st => propagateList g rest (propagateOne g a st)

/-- exploration module propagatePreexistingDiscoveries: iterate over a
snapshot of the currently discovered set. -/
def propagatePreexistingDiscoveries (g : GraphData) (st : ExplorationState) : ExplorationState :=
  propagateList g st.discovered st

/-- One link inspection of the BFS loop body in findReachableNodes: the
forward direction first, then (not exclusively) the backward direction,
each guarded by membership of the far end in the discovered set, novelty,
and the link being discovered in either direction. -/
def reachStep (disc dl : List String) (currentId : String)
    (acc : List String × List String) (link : Link) : List String × List String :=
  let acc1 :=
    if link.source = currentId ∧ link.target ∈ disc ∧ link.target ∉ acc.1 ∧
        (makeLinkId link.source link.target ∈ dl ∨ makeLinkId link.target link.source ∈ dl) then
      (acc.1 ++ [link.target], acc.2 ++ [link.target])
    else acc
  if link.target = currentId ∧ link.oneWay = false ∧ link.source ∈ disc ∧ link.source ∉ acc1.1 ∧
      (makeLinkId link.source link.target ∈ dl ∨ makeLinkId link.target link.source ∈ dl) then
    (acc1.1 ++ [link.source], acc1.2 ++ [link.source])
  else acc1

/-- The while loop of findReachableNodes: dequeue from the front, scan
all links, enqueue the newly reached nodes at the back. Fuel bounds the
number of dequeues; every enqueued node simultaneously enters the
reachable set, so the loop dequeues at most one more node than the
discovered set has elements. -/
def findReachAux (links : List Link) (disc dl : List String) :
    Nat → List String → List String → List String
  | 0, _, reachable => reachable
  | _ + 1, [], reachable => reachable
  | fuel + 1, currentId :: rest, reachable =>
    let s := links.foldl (reachStep disc dl currentId) (reachable, [])
    findReachAux links disc dl fuel (rest ++ s.2) s.1

/-- exploration module findReachableNodes: BFS from the start node over
discovered nodes and discovered links only. -/
def findReachableNodes (startNodeId : String) (links : List Link)
    (disc dl : List String) : List String :=
  findReachAux links disc dl (disc.length + 2) [startNodeId] [startNodeId]

/-- The per-node removal pair used by undiscoverArea: undiscoverNode then
undiscoverLinksForNode. -/
def undiscoverOne (st : ExplorationState) (nodeId : String) : ExplorationState :=
  undiscoverLinksForNode (undiscoverNode st nodeId) nodeId

/-- The toUndiscover.forEach batch removal at the end of undiscoverArea. -/
def batchUndiscover (toRemove : List String) (st : ExplorationState) : ExplorationState :=
  toRemove.foldl undiscoverOne st

/-- exploration module undiscoverArea: a guard for the start zone, then
removal of the requested zone and its links, one reachability BFS, and
one batch removal of everything that fell off. -/
def undiscoverArea (g : GraphData) (areaId : String) (st : ExplorationState) : ExplorationState :=
  if areaId = START_NODE then st
  else
    let st1 := undiscoverOne st areaId
    let reachableFromStart :=
      findReachableNodes START_NODE g.links st1.discovered st1.discoveredLinks
    let toUndiscover := st1.discovered.filter (fun n => !(decide (n ∈ reachableFromStart)))
    batchUndiscover toUndiscover st1

/-- Render-time placeholder node (graph.js placeholder synthesis); the
cosmetic isBoss / scaling copies are omitted, the identity-relevant
fields are kept. -/
structure PlaceholderNode where
  id : String
  realId : String
  isUndiscoveredLink : Bool
  sourceNodeId : String
deriving DecidableEq, Repr

/-- A link as pushed into processedLinks by the renderer: the original
link data together with the possibly re-pointed display endpoints. -/
structure ProcessedLink where
  base : Link
  displaySource : String
  displayTarget : String
deriving DecidableEq, Repr

/-- The deterministic placeholder id. -/
def placeholderId (sourceId targetId : String) : String :=
  "???_" ++ sourceId ++ "_" ++ targetId

/-- The push guarded by the find-by-id dedup of the renderer. -/
def pushPlaceholder (phs : List PlaceholderNode) (p : PlaceholderNode) : List PlaceholderNode :=
  if phs.any (fun q => q.id == p.id) then phs else phs ++ [p]

/-- One iteration of the links.forEach of the exploration-mode branch of
renderGraph: classify the endpoints, synthesize placeholders and
re-pointed links accordingly. -/
def synthStep (disc dl : List String) (acc : List PlaceholderNode × List ProcessedLink)
    (link : Link) : List PlaceholderNode × List ProcessedLink :=
  if link.source ∈ disc ∧ link.target ∈ disc then
    if makeLinkId link.source link.target ∈ dl ∨ makeLinkId link.target link.source ∈ dl then
      (acc.1, acc.2 ++ [⟨link, link.source, link.target⟩])
    else
      let phs := pushPlaceholder acc.1
        ⟨placeholderId link.source link.target, link.target, true, link.source⟩
      let pls := acc.2 ++ [⟨link, link.source, placeholderId link.source link.target⟩]
      if link.oneWay = false then
        (pushPlaceholder phs
          ⟨placeholderId link.target link.source, link.source, true, link.target⟩,
         pls ++ [⟨link, placeholderId link.target link.source, link.target⟩])
      else (phs, pls)
  else if link.source ∈ disc ∧ link.target ∉ disc then
    (pushPlaceholder acc.1
      ⟨placeholderId link.source link.target, link.target, false, link.source⟩,
     acc.2 ++ [⟨link, link.source, placeholderId link.source link.target⟩])
  else if link.source ∉ disc ∧ link.target ∈ disc ∧ link.oneWay = false then
    (pushPlaceholder acc.1
      ⟨placeholderId link.target link.source, link.source, false, link.target⟩,
     acc.2 ++ [⟨link, placeholderId link.target link.source, link.target⟩])
  else acc

/-- The placeholder-synthesis pass of renderGraph in exploration mode. -/
def synthesizePlaceholders (disc dl : List String) (links : List Link) :
    List PlaceholderNode × List ProcessedLink :=
  links.foldl (synthStep disc dl) ([], [])

/-- The placeholder records a single link contributes, by branch. -/
def generates (disc dl : List String) (l : Link) (p : PlaceholderNode) : Prop :=
  (l.source ∈ disc ∧ l.target ∈ disc ∧
    makeLinkId l.source l.target ∉ dl ∧ makeLinkId l.target l.source ∉ dl ∧
    (p = ⟨placeholderId l.source l.target, l.target, true, l.source⟩ ∨
      (l.oneWay = false ∧ p = ⟨placeholderId l.target l.source, l.source, true, l.target⟩))) ∨
  (l.source ∈ disc ∧ l.target ∉ disc ∧
    p = ⟨placeholderId l.source l.target, l.target, false, l.source⟩) ∨
  (l.source ∉ disc ∧ l.target ∈ disc ∧ l.oneWay = false ∧
    p = ⟨placeholderId l.target l.source, l.source, false, l.target⟩)

/-- A zone id that cannot break link keys apart. -/
def BarFree (s : String) : Prop := '|' ∉ s.data

instance (s : String) : Decidable (BarFree s) :=
  inferInstanceAs (Decidable ('|' ∉ s.data))

/-- A zone id that cannot break placeholder ids apart. -/
def NoUnderscore (s : String) : Prop := '_' ∉ s.data

instance (s : String) : Decidable (NoUnderscore s) :=
  inferInstanceAs (Decidable ('_' ∉ s.data))

/-- Well-formed link list: endpoint ids are nonempty and bar-free (true
of every graph the parser can produce: zone names come from spoiler-log
lines and never contain the bar separator or are empty). -/
def WFGraph (g : GraphData) : Prop :=
  ∀ l ∈ g.links, BarFree l.source ∧ BarFree l.target ∧ l.source ≠ "" ∧ l.target ≠ ""

instance (g : GraphData) : Decidable (WFGraph g) :=
  inferInstanceAs (Decidable (∀ l ∈ g.links,
    BarFree l.source ∧ BarFree l.target ∧ l.source ≠ "" ∧ l.target ≠ ""))

/-- Reachability by zero or more preexisting links followed in their
traversable direction (forward always, backward only when not one-way):
the propagation closure the spec describes. -/
inductive PreReach (g : GraphData) (root : String) : String → Prop
  | refl : PreReach g root root
  | fwd {b : String} {l : Link} : PreReach g root b → l ∈ g.links →
      l.type = "preexisting" → l.source = b → PreReach g root l.target
  | back {b : String} {l : Link} : PreReach g root b → l ∈ g.links →
      l.type = "preexisting" → l.target = b → l.oneWay = false → PreReach g root l.source

/-- A zone set closed under traversable preexisting links; every state
the engine produces keeps its discovered set closed in this sense. -/
def PreClosed (g : GraphData) (S : List String) : Prop :=
  ∀ l ∈ g.links, l.type = "preexisting" →
    (l.source ∈ S → l.target ∈ S) ∧ (l.oneWay = false → l.target ∈ S → l.source ∈ S)

instance (g : GraphData) (S : List String) : Decidable (PreClosed g S) :=
  inferInstanceAs (Decidable (∀ l ∈ g.links, l.type = "preexisting" →
    (l.source ∈ S → l.target ∈ S) ∧ (l.oneWay = false → l.target ∈ S → l.source ∈ S)))

/-- Closure of a set at one zone: every preexisting link traversable away
from the zone has its far end in the set. -/
def closedAt (g : GraphData) (S : List String) (x : String) : Prop :=
  ∀ l ∈ g.links, l.type = "preexisting" →
    (l.source = x → l.target ∈ S) ∧ (l.target = x → l.oneWay = false → l.source ∈ S)

/-- All discovered-link keys a propagation pass would (re-)record at one
zone are present: for each traversable preexisting link away from the
zone, the forward key, plus the reverse key when recorded
bidirectionally. -/
def keyRecordedAt (g : GraphData) (dl : List String) (a : String) : Prop :=
  ∀ l ∈ g.links, l.type = "preexisting" →
    (l.source = a →
      makeLinkId a l.target ∈ dl ∧ (l.oneWay = false → makeLinkId l.target a ∈ dl)) ∧
    (l.target = a → l.oneWay = false →
      makeLinkId a l.source ∈ dl ∧ makeLinkId l.source a ∈ dl)

/-- Reachability within a node set S along links discovered in either
direction (keys drawn from dl), direction-respecting; the invariant the
BFS of findReachableNodes maintains. -/
inductive KeyReach (links : List Link) (dl : List String) (S : List String)
    (a : String) : String → Prop
  | refl : a ∈ S → KeyReach links dl S a a
  | fwd {b : String} {l : Link} : KeyReach links dl S a b → l ∈ links → l.source = b →
      l.target ∈ S →
      (makeLinkId l.source l.target ∈ dl ∨ makeLinkId l.target l.source ∈ dl) →
      KeyReach links dl S a l.target
  | back {b : String} {l : Link} : KeyReach links dl S a b → l ∈ links → l.target = b →
      l.oneWay = false → l.source ∈ S →
      (makeLinkId l.source l.target ∈ dl ∨ makeLinkId l.target l.source ∈ dl) →
      KeyReach links dl S a l.source

/-- The undiscovery-soundness criterion of the spec: reachable from the
start zone traversing only links whose key is recorded in the state (in
either direction), forward always and backward only when not one-way. -/
inductive DiscLinkReach (g : GraphData) (st : ExplorationState) : String → Prop
  | start : DiscLinkReach g st START_NODE
  | fwd {b : String} {l : Link} : DiscLinkReach g st b → l ∈ g.links → l.source = b →
      (makeLinkId l.source l.target ∈ st.discoveredLinks ∨
        makeLinkId l.target l.source ∈ st.discoveredLinks) →
      DiscLinkReach g st l.target
  | back {b : String} {l : Link} : DiscLinkReach g st b → l ∈ g.links → l.target = b →
      l.oneWay = false →
      (makeLinkId l.source l.target ∈ st.discoveredLinks ∨
        makeLinkId l.target l.source ∈ st.discoveredLinks) →
      DiscLinkReach g st l.source

/-- Exploration states reachable by the public operations: initialize,
discover, undiscover, reset, and load of a previously saved state (the
save / load round trip reproduces discovered, discoveredLinks, and tags,
so loading re-enters a state that was reachable when saved). A manual
discovery originates from a rendered placeholder, whose anchor is a
discovered zone, so discoverArea is only ever called with a null
fromNodeId or one that is already discovered; zone ids never contain the
bar key separator. -/
inductive ReachableState (g : GraphData) : ExplorationState → Prop
  | init : ReachableState g (initExplorationState g)
  | discover {st : ExplorationState} (areaId : String) (fromNodeId : Option String)
      (viaLink : Option Link) : ReachableState g st → BarFree areaId →
      (∀ f, fromNodeId = some f → f ∈ st.discovered ∧ BarFree f) →
      ReachableState g (discoverArea g areaId fromNodeId viaLink st)
  | undiscover {st : ExplorationState} (areaId : String) : ReachableState g st →
      ReachableState g (undiscoverArea g areaId st)
  | reset {st : ExplorationState} : ReachableState g st →
      ReachableState g (resetExplorationState g)
  | load {st : ExplorationState} : ReachableState g st → ReachableState g st

/-- Endpoints still missing from a zone set; the termination measure of
the preexisting-propagation recursion. -/
def undiscCount (g : GraphData) (S : List String) : Nat :=
  ((linkEndpoints g.links).filter (fun x => decide (x ∉ S))).length

/-- The discovered-link key invariant: every stored key decomposes as a
pair of bar-free zone ids both of which are discovered. -/
def LinkInv (st : ExplorationState) : Prop :=
  ∀ k ∈ st.discoveredLinks, ∃ s t, k = makeLinkId s t ∧ BarFree s ∧ BarFree t ∧
    s ∈ st.discovered ∧ t ∈ st.discovered

/-- Degree of one link as the claim words it: a self loop counts once;
any other touching link counts each of its directions once (one
direction when one-way, two when bidirectional). -/
def claimLinkDegree (n : String) (l : Link) : Nat :=
  if l.source = n ∧ l.target = n then 1
  else if l.source = n ∨ l.target = n then (if l.oneWay then 1 else 2)
  else 0

/-- Total degree of a zone as the claim words it. -/
def claimDegree (g : GraphData) (n : String) : Nat :=
  (g.links.map (claimLinkDegree n)).sum

/-- The canonical shape of every synthesized placeholder record: its id
determines the anchor, the real zone, and (together with the discovered
set) the undiscovered-link flag. -/
def CanonPh (disc : List String) (p : PlaceholderNode) : Prop :=
  ∃ a b, NoUnderscore a ∧ NoUnderscore b ∧
    p = ⟨placeholderId a b, b, decide (a ∈ disc ∧ b ∈ disc), a⟩

/-- State growth along a discovery operation: the discovered set and the
discovered-link set only gain elements and tags never change. -/
def MonoState (st st' : ExplorationState) : Prop :=
  st.discovered ⊆ st'.discovered ∧ st.discoveredLinks ⊆ st'.discoveredLinks ∧
    st'.tags = st.tags

/-- The growth property for an abstract recursive-call argument. -/
def MonoRec
    (rec : String → Option String → Option Link → ExplorationState → ExplorationState) :
    Prop :=
  ∀ a f v st, MonoState st (rec a f v st)

/-! Concrete instances used by witnesses and counterexamples. -/

/-- Tiny graph: a one-way preexisting link from the start zone, then a
bidirectional random fog gate. -/
def gScenario : GraphData :=
  ⟨["Chapel of Anticipation", "Roundtable Hold", "Limgrave"],
   [⟨"Chapel of Anticipation", "Roundtable Hold", "preexisting", true, false⟩,
    ⟨"Roundtable Hold", "Limgrave", "random", false, false⟩]⟩

/-- Hub-degree example: one bidirectional link, one one-way link, and a
self loop all touching zone A. -/
def gHub : GraphData :=
  ⟨["A", "B", "C"],
   [⟨"A", "B", "random", false, false⟩,
    ⟨"A", "C", "random", true, false⟩,
    ⟨"A", "A", "preexisting", false, false⟩]⟩

/-- One-way derivation example: a symmetric preexisting pair, a lone
preexisting link, and a lone random link. -/
def linksOneWay : List Link :=
  [⟨"A", "B", "preexisting", true, false⟩,
   ⟨"B", "A", "preexisting", true, false⟩,
   ⟨"C", "D", "preexisting", false, false⟩,
   ⟨"E", "F", "random", true, false⟩]

/-- The bidirectional random fog gate of gScenario. -/
def linkRT : Link := ⟨"Roundtable Hold", "Limgrave", "random", false, false⟩

/-- The state after initializing exploration on gScenario: the start
zone and Roundtable Hold (preexisting propagation), Limgrave still
hidden behind the fog gate. -/
def stScenario : ExplorationState := initExplorationState gScenario

/-- The scenario state after additionally discovering Limgrave through
the fog gate and putting a warning tag on it. -/
def stScenarioTagged : ExplorationState :=
  { discoverArea gScenario "Limgrave" (some "Roundtable Hold") (some linkRT) stScenario with
    tags := [("Limgrave", ["warning"])] }

/-- The scenario state after discovering Limgrave through the fog gate
(reachable from the initial state by one discoverArea call). -/
def stScenario2 : ExplorationState :=
  discoverArea gScenario "Limgrave" (some "Roundtable Hold") (some linkRT) stScenario

/-- A one-zone graph with no links, used to exhibit the behaviour of the
discovery entry points on an id that is not a zone of the graph. -/
def gUnknown : GraphData := ⟨["Chapel of Anticipation"], []⟩

/-- Its initial exploration state. -/
def stUnknown : ExplorationState := initExplorationState gUnknown

/-- The untraversed bidirectional fog gate between zones A and B of the
placeholder scenario. -/
def lAB : Link := ⟨"A", "B", "random", false, false⟩

/-- The placeholder scenario graph: zones A and B joined by an
untraversed bidirectional fog gate. -/
def gPlaceholder : GraphData := ⟨["Chapel of Anticipation", "A", "B"], [lAB]⟩

/-! Basic lemmas about the set and state helpers. -/

theorem mem_addToSet {xs : List String} {x y : String} :
    y ∈ addToSet xs x ↔ y = x ∨ y ∈ xs := by
  unfold addToSet
  by_cases h : x ∈ xs
  · simp only [if_pos h]
    constructor
    · exact fun hy => Or.inr hy
    · rintro (rfl | hy)
      · exact h
      · exact hy
  · simp [if_neg h, List.mem_append, or_comm]

theorem subset_addToSet (xs : List String) (x : String) : xs ⊆ addToSet xs x :=
  fun _ hy => mem_addToSet.mpr (Or.inr hy)

theorem mem_addToSet_self (xs : List String) (x : String) : x ∈ addToSet xs x :=
  mem_addToSet.mpr (Or.inl rfl)

theorem discoverNode_discovered {st : ExplorationState} {n x : String} :
    x ∈ (discoverNode st n).discovered ↔ x = n ∨ x ∈ st.discovered := mem_addToSet

theorem discoverNode_discoveredLinks (st : ExplorationState) (n : String) :
    (discoverNode st n).discoveredLinks = st.discoveredLinks := rfl

theorem discoverNode_tags (st : ExplorationState) (n : String) :
    (discoverNode st n).tags = st.tags := rfl

theorem discoverLink_discovered (st : ExplorationState) (s t : String) (b : Bool) :
    (discoverLink st s t b).discovered = st.discovered := rfl

theorem discoverLink_tags (st : ExplorationState) (s t : String) (b : Bool) :
    (discoverLink st s t b).tags = st.tags := rfl

theorem mem_discoverLink {st : ExplorationState} {s t : String} {b : Bool} {k : String} :
    k ∈ (discoverLink st s t b).discoveredLinks ↔
      k = makeLinkId s t ∨ (b = true ∧ k = makeLinkId t s) ∨ k ∈ st.discoveredLinks := by
  unfold discoverLink
  cases b <;> simp [mem_addToSet] <;> tauto

theorem discoverLink_dl_subset (st : ExplorationState) (s t : String) (b : Bool) :
    st.discoveredLinks ⊆ (discoverLink st s t b).discoveredLinks :=
  fun _ hk => mem_discoverLink.mpr (Or.inr (Or.inr hk))

theorem mem_discoverLink_forward (st : ExplorationState) (s t : String) (b : Bool) :
    makeLinkId s t ∈ (discoverLink st s t b).discoveredLinks :=
  mem_discoverLink.mpr (Or.inl rfl)

theorem mem_discoverLink_reverse (st : ExplorationState) (s t : String) :
    makeLinkId t s ∈ (discoverLink st s t true).discoveredLinks :=
  mem_discoverLink.mpr (Or.inr (Or.inl ⟨rfl, rfl⟩))

theorem addToSet_eq_self {xs : List String} {x : String} (h : x ∈ xs) :
    addToSet xs x = xs := by simp [addToSet, h]

theorem discoverLink_eq_self {st : ExplorationState} {s t : String} {b : Bool}
    (h1 : makeLinkId s t ∈ st.discoveredLinks)
    (h2 : b = true → makeLinkId t s ∈ st.discoveredLinks) :
    discoverLink st s t b = st := by
  cases st
  unfold discoverLink
  cases b
  · simp [addToSet_eq_self h1]
  · simp [addToSet_eq_self h1, addToSet_eq_self (h2 rfl)]

theorem recordFromLink_discovered (st : ExplorationState) (a : String)
    (f : Option String) (v : Option Link) :
    (recordFromLink st a f v).discovered = st.discovered := by
  unfold recordFromLink
  cases f
  · rfl
  · dsimp only
    split
    · rfl
    · exact discoverLink_discovered ..

theorem recordFromLink_tags (st : ExplorationState) (a : String)
    (f : Option String) (v : Option Link) :
    (recordFromLink st a f v).tags = st.tags := by
  unfold recordFromLink
  cases f
  · rfl
  · dsimp only
    split
    · rfl
    · exact discoverLink_tags ..

theorem recordFromLink_dl_subset (st : ExplorationState) (a : String)
    (f : Option String) (v : Option Link) :
    st.discoveredLinks ⊆ (recordFromLink st a f v).discoveredLinks := by
  unfold recordFromLink
  cases f
  · exact fun _ h => h
  · dsimp only
    split
    · exact fun _ h => h
    · exact discoverLink_dl_subset ..

/-! String splitting lemmas for link keys and placeholder ids. -/

theorem append_sep_inj {c : Char} :
    ∀ {as as' bs bs' : List Char}, c ∉ as → c ∉ as' →
      as ++ c :: bs = as' ++ c :: bs' → as = as' ∧ bs = bs'
  | [], [], _, _, _, _, h => by simpa using h
  | [], a' :: as', _, _, _, ha', h => by
      simp only [List.nil_append, List.cons_append, List.cons.injEq] at h
      exact absurd (h.1 ▸ List.mem_cons_self a' as') (by simpa [h.1] using ha')
  | a :: as, [], _, _, ha, _, h => by
      simp only [List.cons_append, List.nil_append, List.cons.injEq] at h
      exact absurd (h.1 ▸ List.mem_cons_self a as) (by simpa [h.1] using ha)
  | a :: as, a' :: as', bs, bs', ha, ha', h => by
      simp only [List.cons_append, List.cons.injEq] at h
      have ha2 : c ∉ as := fun hc => ha (List.mem_cons_of_mem _ hc)
      have ha2' : c ∉ as' := fun hc => ha' (List.mem_cons_of_mem _ hc)
      have := append_sep_inj ha2 ha2' h.2
      exact ⟨by rw [h.1, this.1], this.2⟩

theorem makeLinkId_data (s t : String) :
    (makeLinkId s t).data = s.data ++ '|' :: t.data := by
  show ((s ++ "|") ++ t).data = _
  rw [String.data_append, String.data_append]
  simp

theorem makeLinkId_inj {s t s' t' : String} (hs : BarFree s) (hs' : BarFree s')
    (h : makeLinkId s t = makeLinkId s' t') : s = s' ∧ t = t' := by
  have hd : (makeLinkId s t).data = (makeLinkId s' t').data := by rw [h]
  rw [makeLinkId_data, makeLinkId_data] at hd
  have := append_sep_inj hs hs' hd
  exact ⟨String.ext this.1, String.ext this.2⟩

theorem splitChar_nil (c : Char) : splitChar c [] = [[]] := rfl

theorem splitChar_cons (c x : Char) (xs : List Char) :
    splitChar c (x :: xs) =
      if x = c then [] :: splitChar c xs
      else (x :: (splitChar c xs).headD []) :: (splitChar c xs).tail := rfl

theorem splitChar_of_not_mem {c : Char} : ∀ {as : List Char}, c ∉ as →
    splitChar c as = [as]
  | [], _ => rfl
  | a :: as, h => by
      have hac : ¬(a = c) := fun hc => h (hc ▸ List.mem_cons_self a as)
      have has : c ∉ as := fun hc => h (List.mem_cons_of_mem _ hc)
      rw [splitChar_cons, if_neg hac, splitChar_of_not_mem has]
      rfl

theorem splitChar_append_sep {c : Char} : ∀ {as bs : List Char}, c ∉ as →
    splitChar c (as ++ c :: bs) = as :: splitChar c bs
  | [], bs, _ => by
      rw [List.nil_append, splitChar_cons, if_pos rfl]
  | a :: as, bs, h => by
      have hac : ¬(a = c) := fun hc => h (hc ▸ List.mem_cons_self a as)
      have has : c ∉ as := fun hc => h (List.mem_cons_of_mem _ hc)
      rw [List.cons_append, splitChar_cons, if_neg hac, splitChar_append_sep has]
      rfl

theorem jsSplitBar_makeLinkId {s t : String} (hs : BarFree s) (ht : BarFree t) :
    jsSplitBar (makeLinkId s t) = [s, t] := by
  unfold jsSplitBar
  rw [makeLinkId_data, splitChar_append_sep hs, splitChar_of_not_mem ht]
  simp

theorem keyInvolves_makeLinkId {s t n : String} (hs : BarFree s) (ht : BarFree t) :
    keyInvolves (makeLinkId s t) n = (decide (s = n) || decide (t = n)) := by
  unfold keyInvolves
  rw [jsSplitBar_makeLinkId hs ht]
  simp

/-! Fold helper for degree counting. -/

theorem foldl_add_eq_sum (f : Link → Nat) :
    ∀ (ls : List Link) (a : Nat), ls.foldl (fun d l => d + f l) a = a + (ls.map f).sum
  | [], a => by simp
  | l :: ls, a => by
      simp only [List.foldl_cons, List.map_cons, List.sum_cons]
      rw [foldl_add_eq_sum f ls (a + f l)]
      omega

theorem linkDegree_eq_claim {n : String} {nodes : List String} (hn : n ∈ nodes) (l : Link) :
    linkDegree n nodes l = claimLinkDegree n l := by
  obtain ⟨s, t, ty, w, iw⟩ := l
  unfold linkDegree claimLinkDegree
  dsimp only
  rcases eq_or_ne s n with rfl | hs
  · rcases eq_or_ne t s with rfl | ht
    · cases w <;> simp [hn]
    · have ht' : ¬(s = t) := fun h => ht h.symm
      cases w <;> simp [hn, ht, ht']
  · rcases eq_or_ne t n with rfl | ht
    · have hs' : ¬(s = t) := hs
      cases w <;> simp [hn, hs, hs']
    · cases w <;> simp [hs, ht]

theorem nodeDegree_eq_claim {g : GraphData} {n : String} (hn : n ∈ g.nodes) :
    nodeDegree g n = claimDegree g n := by
  unfold nodeDegree claimDegree
  rw [foldl_add_eq_sum]
  simp only [Nat.zero_add]
  congr 1
  exact List.map_congr_left fun l _ => linkDegree_eq_claim hn l

/-- C8: a zone of a loaded graph is marked as a hub exactly when its
total degree is at least three, the degree counting each direction of a
touching link once and a self loop once. -/
theorem isHub_iff_degree_ge_three (g : GraphData) (n : String) (hn : n ∈ g.nodes) :
    isHub g n = true ↔ 3 ≤ claimDegree g n := by
  unfold isHub
  rw [nodeDegree_eq_claim hn]
  simp

/-- Witness for C8 at a concrete hub: zone A of gHub has one
bidirectional link, one one-way link and a self loop, degree four. -/
theorem isHub_iff_degree_ge_three_witness :
    "A" ∈ gHub.nodes ∧ (isHub gHub "A" = true ↔ 3 ≤ claimDegree gHub "A") :=
  ⟨by decide, isHub_iff_degree_ge_three gHub "A" (by decide)⟩

/-- C6: after computeOneWayLinks, a preexisting link is one-way exactly
when no reversed-endpoint link occurs in the list, and a random link is
one-way exactly when flagged inherently one-way, regardless of reverse
links. -/
theorem computeOneWayLinks_correct (links : List Link)
    (hbar : ∀ l ∈ links, BarFree l.source ∧ BarFree l.target) :
    ∀ l ∈ computeOneWayLinks links,
      (l.type = "preexisting" →
        (l.oneWay = true ↔ ¬ ∃ r ∈ links, r.source = l.target ∧ r.target = l.source)) ∧
      (l.type = "random" → l.oneWay = l.isInherentlyOneWay) := by
  intro l hl
  unfold computeOneWayLinks at hl
  by_cases hemp : links.isEmpty
  · rw [if_pos hemp] at hl
    rw [List.isEmpty_iff] at hemp
    subst hemp
    simp at hl
  · rw [if_neg hemp] at hl
    obtain ⟨l0, hl0, rfl⟩ := List.mem_map.mp hl
    refine ⟨fun hpre => ?_, fun hrand => ?_⟩
    · have hpre' : l0.type = "preexisting" := hpre
      have hnr : ¬(l0.type = "random") := by rw [hpre']; decide
      show (if l0.type = "random" then l0.isInherentlyOneWay
        else !(decide (makeLinkId l0.target l0.source ∈
          links.map (fun r => makeLinkId r.source r.target)))) = true ↔ _
      rw [if_neg hnr]
      simp only [Bool.not_eq_true', decide_eq_false_iff_not]
      constructor
      · intro hmem hex
        obtain ⟨r, hr, hrs, hrt⟩ := hex
        exact hmem (List.mem_map.mpr ⟨r, hr, by rw [hrs, hrt]⟩)
      · intro hex hmem
        obtain ⟨r, hr, hkey⟩ := List.mem_map.mp hmem
        have := makeLinkId_inj (hbar r hr).1 (hbar l0 hl0).2 hkey
        exact hex ⟨r, hr, this.1, this.2⟩
    · have hrand' : l0.type = "random" := hrand
      show (if l0.type = "random" then l0.isInherentlyOneWay
        else !(decide (makeLinkId l0.target l0.source ∈
          links.map (fun r => makeLinkId r.source r.target)))) = l0.isInherentlyOneWay
      rw [if_pos hrand']

/-- Witness for C6 on a concrete list: a symmetric preexisting pair
comes out bidirectional, a lone preexisting link comes out one-way, and
a lone random link stays bidirectional because it is not flagged. -/
theorem computeOneWayLinks_correct_witness :
    (∀ l ∈ linksOneWay, BarFree l.source ∧ BarFree l.target) ∧
    (∀ l ∈ computeOneWayLinks linksOneWay,
      (l.type = "preexisting" →
        (l.oneWay = true ↔ ¬ ∃ r ∈ linksOneWay, r.source = l.target ∧ r.target = l.source)) ∧
      (l.type = "random" → l.oneWay = l.isInherentlyOneWay)) :=
  ⟨by decide, computeOneWayLinks_correct linksOneWay (by decide)⟩

/-! Monotonicity of discovery. -/

theorem monoState_refl (st : ExplorationState) : MonoState st st :=
  ⟨fun _ h => h, fun _ h => h, rfl⟩

theorem monoState_trans {s1 s2 s3 : ExplorationState}
    (h12 : MonoState s1 s2) (h23 : MonoState s2 s3) : MonoState s1 s3 :=
  ⟨fun _ h => h23.1 (h12.1 h), fun _ h => h23.2.1 (h12.2.1 h), by rw [h23.2.2, h12.2.2]⟩

theorem discoverLink_mono (st : ExplorationState) (s t : String) (b : Bool) :
    MonoState st (discoverLink st s t b) :=
  ⟨by rw [discoverLink_discovered]; exact fun _ h => h,
   discoverLink_dl_subset st s t b, discoverLink_tags st s t b⟩

theorem discoverNode_mono (st : ExplorationState) (n : String) :
    MonoState st (discoverNode st n) :=
  ⟨subset_addToSet _ _, fun _ h => h, rfl⟩

theorem recordFromLink_mono (st : ExplorationState) (a : String)
    (f : Option String) (v : Option Link) : MonoState st (recordFromLink st a f v) :=
  ⟨by rw [recordFromLink_discovered]; exact fun _ h => h,
   recordFromLink_dl_subset st a f v, recordFromLink_tags st a f v⟩

theorem discoverStep_mono {rec : String → Option String → Option Link →
      ExplorationState → ExplorationState} (hrec : MonoRec rec)
    (a : String) (l : Link) (st : ExplorationState) :
    MonoState st (discoverStep rec a l st) := by
  unfold discoverStep
  split
  · exact monoState_refl st
  · split
    · split
      · exact hrec _ _ _ _
      · exact discoverLink_mono ..
    · split
      · split
        · exact hrec _ _ _ _
        · exact discoverLink_mono ..
      · exact monoState_refl st

theorem processLinks_mono {rec : String → Option String → Option Link →
      ExplorationState → ExplorationState} (hrec : MonoRec rec) (a : String) :
    ∀ (ls : List Link) (st : ExplorationState), MonoState st (processLinks rec a ls st)
  | [], st => monoState_refl st
  | l :: ls, st =>
      monoState_trans (discoverStep_mono hrec a l st) (processLinks_mono hrec a ls _)

theorem dwp_mono (g : GraphData) :
    ∀ fuel : Nat, MonoRec (discoverWithPreexisting g fuel)
  | 0 => fun _ _ _ st => monoState_refl st
  | fuel + 1 => fun a f v st => by
      unfold discoverWithPreexisting
      dsimp only
      split
      · exact recordFromLink_mono ..
      · exact monoState_trans (recordFromLink_mono ..)
          (monoState_trans (discoverNode_mono ..)
            (processLinks_mono (dwp_mono g fuel) _ _ _))

theorem propagateList_mono (g : GraphData) :
    ∀ (L : List String) (st : ExplorationState), MonoState st (propagateList g L st)
  | [], st => monoState_refl st
  | a :: L, st =>
      monoState_trans (processLinks_mono (dwp_mono g _) _ _ _) (propagateList_mono g L _)

theorem dwp_mem_area (g : GraphData) (fuel : Nat) (a : String)
    (f : Option String) (v : Option Link) (st : ExplorationState) :
    a ∈ (discoverWithPreexisting g (fuel + 1) a f v st).discovered := by
  unfold discoverWithPreexisting
  dsimp only
  split
  · next h => rw [recordFromLink_discovered]; exact h
  · exact (processLinks_mono (dwp_mono g fuel) _ _ _).1 (mem_addToSet_self _ _)

theorem dwp_dl_extends_record (g : GraphData) (fuel : Nat) (a : String)
    (f : Option String) (v : Option Link) (st : ExplorationState) :
    (recordFromLink st a f v).discoveredLinks ⊆
      (discoverWithPreexisting g (fuel + 1) a f v st).discoveredLinks := by
  unfold discoverWithPreexisting
  dsimp only
  split
  · exact fun _ h => h
  · exact fun k hk => (processLinks_mono (dwp_mono g fuel) _ _ _).2.1 hk

/-- C5: discovering a zone from a given origin records the forward link
key, and the reverse key too whenever the via link is absent or not
one-way. -/
theorem discoverArea_records_link (g : GraphData) (st : ExplorationState)
    (z f : String) (v : Option Link) (hf : ¬(f = "")) :
    makeLinkId f z ∈ (discoverArea g z (some f) v st).discoveredLinks ∧
    ((v = none ∨ ∃ l, v = some l ∧ l.oneWay = false) →
      makeLinkId z f ∈ (discoverArea g z (some f) v st).discoveredLinks) := by
  have hrec : recordFromLink st z (some f) v = discoverLink st f z (viaBidirectional v) := by
    unfold recordFromLink
    dsimp only
    rw [if_neg hf]
  have hfwd : makeLinkId f z ∈ (recordFromLink st z (some f) v).discoveredLinks := by
    rw [hrec]; exact mem_discoverLink_forward ..
  have hbwd : (v = none ∨ ∃ l, v = some l ∧ l.oneWay = false) →
      makeLinkId z f ∈ (recordFromLink st z (some f) v).discoveredLinks := by
    intro hv
    have hbid : viaBidirectional v = true := by
      rcases hv with rfl | ⟨l, rfl, hl⟩
      · rfl
      · simp [viaBidirectional, hl]
    rw [hrec, hbid]
    exact mem_discoverLink_reverse ..
  have hgoal : discoverArea g z (some f) v st =
      discoverWithPreexisting g ((linkEndpoints g.links).length + 1) z (some f) v st := rfl
  rw [hgoal]
  have hext := dwp_dl_extends_record g (linkEndpoints g.links).length z (some f) v st
  exact ⟨hext hfwd, fun hv => hext (hbwd hv)⟩

/-- Witness for C5: the Limgrave scenario; discovering Limgrave from
Roundtable Hold through the bidirectional fog gate leaves both keys in
discoveredLinks. -/
theorem discoverArea_records_link_witness :
    ¬("Roundtable Hold" = "") ∧
    "Roundtable Hold|Limgrave" ∈ (discoverArea gScenario "Limgrave"
      (some "Roundtable Hold") (some linkRT) stScenario).discoveredLinks ∧
    "Limgrave|Roundtable Hold" ∈ (discoverArea gScenario "Limgrave"
      (some "Roundtable Hold") (some linkRT) stScenario).discoveredLinks :=
  ⟨by decide,
   (discoverArea_records_link gScenario stScenario "Limgrave" "Roundtable Hold"
      (some linkRT) (by decide)).1,
   (discoverArea_records_link gScenario stScenario "Limgrave" "Roundtable Hold"
      (some linkRT) (by decide)).2 (Or.inr ⟨linkRT, rfl, rfl⟩)⟩

/-! Undiscovery lemmas. -/

theorem undiscoverNode_discovered_mem {st : ExplorationState} {n x : String} :
    x ∈ (undiscoverNode st n).discovered ↔ x ∈ st.discovered ∧ x ≠ n := by
  unfold undiscoverNode
  split
  · next h =>
    simp [List.mem_filter]
  · next h =>
    constructor
    · exact fun hx => ⟨hx, fun he => h (he ▸ hx)⟩
    · exact fun hx => hx.1

theorem undiscoverNode_dl (st : ExplorationState) (n : String) :
    (undiscoverNode st n).discoveredLinks = st.discoveredLinks := by
  unfold undiscoverNode
  split <;> rfl

theorem lookup_filter_ne (n : String) :
    ∀ ts : List (String × List String),
      List.lookup n (ts.filter (fun p => decide (p.1 ≠ n))) = none
  | [] => rfl
  | (k, v) :: ts => by
      by_cases hk : k = n
      · rw [List.filter_cons, if_neg (by simp [hk])]
        exact lookup_filter_ne n ts
      · rw [List.filter_cons, if_pos (by simp [hk])]
        rw [List.lookup_cons]
        rw [show (n == k) = false from beq_eq_false_iff_ne.mpr (fun h => hk h.symm)]
        exact lookup_filter_ne n ts

theorem lookup_filter_none {n : String} {p : String × List String → Bool} :
    ∀ {ts : List (String × List String)}, List.lookup n ts = none →
      List.lookup n (ts.filter p) = none
  | [], _ => rfl
  | (k, v) :: ts, h => by
      rw [List.lookup_cons] at h
      cases hkn : (n == k) with
      | true => rw [hkn] at h; exact absurd h (by simp)
      | false =>
          rw [hkn] at h
          rw [List.filter_cons]
          split
          · rw [List.lookup_cons, hkn]
            exact lookup_filter_none h
          · exact lookup_filter_none h

theorem undiscoverNode_tags_self {st : ExplorationState} {n : String}
    (h : n ∈ st.discovered) :
    List.lookup n (undiscoverNode st n).tags = none := by
  unfold undiscoverNode
  rw [if_pos h]
  exact lookup_filter_ne n st.tags

theorem undiscoverNode_tags_none {st : ExplorationState} {n m : String}
    (h : List.lookup m st.tags = none) :
    List.lookup m (undiscoverNode st n).tags = none := by
  unfold undiscoverNode
  split
  · exact lookup_filter_none h
  · exact h

theorem mem_undiscoverLinksForNode {st : ExplorationState} {n k : String} :
    k ∈ (undiscoverLinksForNode st n).discoveredLinks ↔
      k ∈ st.discoveredLinks ∧ keyInvolves k n = false := by
  unfold undiscoverLinksForNode
  simp [List.mem_filter]

theorem undiscoverLinksForNode_discovered (st : ExplorationState) (n : String) :
    (undiscoverLinksForNode st n).discovered = st.discovered := rfl

theorem undiscoverLinksForNode_tags (st : ExplorationState) (n : String) :
    (undiscoverLinksForNode st n).tags = st.tags := rfl

theorem undiscoverOne_discovered_mem {st : ExplorationState} {n x : String} :
    x ∈ (undiscoverOne st n).discovered ↔ x ∈ st.discovered ∧ x ≠ n := by
  unfold undiscoverOne
  rw [undiscoverLinksForNode_discovered]
  exact undiscoverNode_discovered_mem

theorem undiscoverOne_dl_mem {st : ExplorationState} {n k : String} :
    k ∈ (undiscoverOne st n).discoveredLinks ↔
      k ∈ st.discoveredLinks ∧ keyInvolves k n = false := by
  unfold undiscoverOne
  rw [mem_undiscoverLinksForNode, undiscoverNode_dl]

theorem undiscoverOne_tags_self {st : ExplorationState} {n : String}
    (h : n ∈ st.discovered) :
    List.lookup n (undiscoverOne st n).tags = none := by
  unfold undiscoverOne
  rw [undiscoverLinksForNode_tags]
  exact undiscoverNode_tags_self h

theorem undiscoverOne_tags_none {st : ExplorationState} {n m : String}
    (h : List.lookup m st.tags = none) :
    List.lookup m (undiscoverOne st n).tags = none := by
  unfold undiscoverOne
  rw [undiscoverLinksForNode_tags]
  exact undiscoverNode_tags_none h

theorem batch_discovered_mem :
    ∀ (L : List String) (st : ExplorationState) (x : String),
      x ∈ (batchUndiscover L st).discovered ↔ x ∈ st.discovered ∧ x ∉ L
  | [], st, x => by simp [batchUndiscover]
  | a :: L, st, x => by
      show x ∈ (batchUndiscover L (undiscoverOne st a)).discovered ↔ _
      rw [batch_discovered_mem L (undiscoverOne st a) x, undiscoverOne_discovered_mem]
      simp only [List.mem_cons]
      tauto

theorem batch_dl_mem :
    ∀ (L : List String) (st : ExplorationState) (k : String),
      k ∈ (batchUndiscover L st).discoveredLinks ↔
        k ∈ st.discoveredLinks ∧ ∀ n ∈ L, keyInvolves k n = false
  | [], st, k => by simp [batchUndiscover]
  | a :: L, st, k => by
      show k ∈ (batchUndiscover L (undiscoverOne st a)).discoveredLinks ↔ _
      rw [batch_dl_mem L (undiscoverOne st a) k, undiscoverOne_dl_mem]
      simp only [List.mem_cons]
      constructor
      · rintro ⟨⟨hk, ha⟩, hall⟩
        exact ⟨hk, fun n hn => by rcases hn with rfl | hn; exact ha; exact hall n hn⟩
      · rintro ⟨hk, hall⟩
        exact ⟨⟨hk, hall a (Or.inl rfl)⟩, fun n hn => hall n (Or.inr hn)⟩

theorem batch_tags_none :
    ∀ (L : List String) (st : ExplorationState) (m : String),
      List.lookup m st.tags = none →
        List.lookup m (batchUndiscover L st).tags = none
  | [], _, _, h => h
  | a :: L, st, m, h =>
      batch_tags_none L (undiscoverOne st a) m (undiscoverOne_tags_none h)

theorem batch_tags_of_mem :
    ∀ (L : List String) (st : ExplorationState) (n : String),
      n ∈ L → n ∈ st.discovered →
        List.lookup n (batchUndiscover L st).tags = none
  | [], _, _, h, _ => absurd h (List.not_mem_nil _)
  | a :: L, st, n, hL, hdisc => by
      show List.lookup n (batchUndiscover L (undiscoverOne st a)).tags = none
      by_cases hna : n = a
      · exact batch_tags_none L _ n (hna ▸ undiscoverOne_tags_self hdisc)
      · have hL' : n ∈ L := by
          rcases List.mem_cons.mp hL with h | h
          · exact absurd h hna
          · exact h
        exact batch_tags_of_mem L _ n hL' (undiscoverOne_discovered_mem.mpr ⟨hdisc, hna⟩)

/-! BFS reachable-set lemmas. -/

theorem reachStep_fst_subset (disc dl : List String) (c : String)
    (acc : List String × List String) (l : Link) :
    acc.1 ⊆ (reachStep disc dl c acc l).1 := by
  unfold reachStep
  dsimp only
  split
  · split
    · exact fun x hx => List.mem_append_left _ (List.mem_append_left _ hx)
    · exact fun x hx => List.mem_append_left _ hx
  · split
    · exact fun x hx => List.mem_append_left _ hx
    · exact fun _ hx => hx

theorem foldl_reachStep_fst_subset (disc dl : List String) (c : String) :
    ∀ (ls : List Link) (acc : List String × List String),
      acc.1 ⊆ (ls.foldl (reachStep disc dl c) acc).1
  | [], _ => fun _ hx => hx
  | l :: ls, acc => fun x hx =>
      foldl_reachStep_fst_subset disc dl c ls (reachStep disc dl c acc l)
        (reachStep_fst_subset disc dl c acc l hx)

theorem findReachAux_reach_subset (links : List Link) (disc dl : List String) :
    ∀ (fuel : Nat) (queue reach : List String),
      reach ⊆ findReachAux links disc dl fuel queue reach
  | 0, _, _ => fun _ hx => hx
  | _ + 1, [], _ => fun _ hx => hx
  | fuel + 1, c :: rest, reach => fun x hx =>
      findReachAux_reach_subset links disc dl fuel
        (rest ++ (links.foldl (reachStep disc dl c) (reach, [])).2)
        (links.foldl (reachStep disc dl c) (reach, [])).1
        (foldl_reachStep_fst_subset disc dl c links (reach, []) hx)

theorem start_mem_findReachableNodes (startNodeId : String) (links : List Link)
    (disc dl : List String) :
    startNodeId ∈ findReachableNodes startNodeId links disc dl :=
  findReachAux_reach_subset links disc dl (disc.length + 2) [startNodeId] [startNodeId]
    (List.mem_singleton.mpr rfl)

/-! undiscoverArea structure lemmas. -/

theorem undiscoverArea_start (g : GraphData) (st : ExplorationState) :
    undiscoverArea g START_NODE st = st := by
  unfold undiscoverArea
  rw [if_pos rfl]

theorem undiscoverArea_eq (g : GraphData) (z : String) (st : ExplorationState)
    (hz : ¬(z = START_NODE)) :
    undiscoverArea g z st =
      batchUndiscover
        ((undiscoverOne st z).discovered.filter
          (fun n => !(decide (n ∈ findReachableNodes START_NODE g.links
            (undiscoverOne st z).discovered (undiscoverOne st z).discoveredLinks))))
        (undiscoverOne st z) := by
  unfold undiscoverArea
  rw [if_neg hz]

theorem discoverArea_tags (g : GraphData) (a : String) (f : Option String)
    (v : Option Link) (st : ExplorationState) :
    (discoverArea g a f v st).tags = st.tags :=
  (dwp_mono g (discoveryFuel g) a f v st).2.2

theorem getNodeTags_eq_nil {st : ExplorationState} {n : String}
    (h : List.lookup n st.tags = none) : getNodeTags st n = [] := by
  unfold getNodeTags
  rw [h]
  rfl

/-- C10: a zone removed from discovered by undiscoverArea, directly or
through the reachability cascade, loses its tags entry in the same
operation, and re-discovering it afterwards yields an empty tag list. -/
theorem undiscover_removes_tags (g : GraphData) (z : String) (st : ExplorationState)
    (n : String) (hn : n ∈ st.discovered)
    (hgone : n ∉ (undiscoverArea g z st).discovered) :
    List.lookup n (undiscoverArea g z st).tags = none ∧
    ∀ (a : String) (f : Option String) (v : Option Link),
      getNodeTags (discoverArea g a f v (undiscoverArea g z st)) n = [] := by
  have hlookup : List.lookup n (undiscoverArea g z st).tags = none := by
    by_cases hz : z = START_NODE
    · rw [hz, undiscoverArea_start] at hgone
      exact absurd hn hgone
    · rw [undiscoverArea_eq g z st hz] at hgone ⊢
      by_cases h1 : n ∈ (undiscoverOne st z).discovered
      · have hnL : n ∈ (undiscoverOne st z).discovered.filter
            (fun n => !(decide (n ∈ findReachableNodes START_NODE g.links
              (undiscoverOne st z).discovered (undiscoverOne st z).discoveredLinks))) := by
          by_contra hno
          exact hgone ((batch_discovered_mem _ _ _).mpr ⟨h1, hno⟩)
        exact batch_tags_of_mem _ _ n hnL h1
      · have hnz : n = z := by
          by_contra hne
          exact h1 (undiscoverOne_discovered_mem.mpr ⟨hn, hne⟩)
        subst hnz
        exact batch_tags_none _ _ n (undiscoverOne_tags_self hn)
  refine ⟨hlookup, fun a f v => ?_⟩
  apply getNodeTags_eq_nil
  rw [discoverArea_tags]
  exact hlookup

/-- Witness for C10: undiscovering Limgrave on the scenario state (after
tagging it) removes its tag entry and re-discovery yields no tags. -/
theorem undiscover_removes_tags_witness :
    "Limgrave" ∈ stScenarioTagged.discovered ∧
    "Limgrave" ∉ (undiscoverArea gScenario "Limgrave" stScenarioTagged).discovered ∧
    List.lookup "Limgrave" (undiscoverArea gScenario "Limgrave" stScenarioTagged).tags = none ∧
    getNodeTags (discoverArea gScenario "Limgrave" (some "Roundtable Hold") (some linkRT)
      (undiscoverArea gScenario "Limgrave" stScenarioTagged)) "Limgrave" = [] :=
  ⟨by decide, by decide,
   (undiscover_removes_tags gScenario "Limgrave" stScenarioTagged "Limgrave"
      (by decide) (by decide)).1,
   (undiscover_removes_tags gScenario "Limgrave" stScenarioTagged "Limgrave"
      (by decide) (by decide)).2 "Limgrave" (some "Roundtable Hold") (some linkRT)⟩

/-- C3: the start zone is discovered in every reachable exploration
state, and undiscovering the start zone is an exact no-op. -/
theorem start_node_invariant (g : GraphData) :
    (∀ st, ReachableState g st → START_NODE ∈ st.discovered) ∧
    (∀ st, undiscoverArea g START_NODE st = st) := by
  have hstart : ∀ (st : ExplorationState) (a : String),
      START_NODE ∈ st.discovered → START_NODE ∈ (undiscoverArea g a st).discovered := by
    intro st a h
    by_cases ha : a = START_NODE
    · rw [ha, undiscoverArea_start]
      exact h
    · rw [undiscoverArea_eq g a st ha]
      refine (batch_discovered_mem _ _ _).mpr ⟨undiscoverOne_discovered_mem.mpr
        ⟨h, fun he => ha he.symm⟩, ?_⟩
      intro hmem
      have h2 := (List.mem_filter.mp hmem).2
      rw [Bool.not_eq_true', decide_eq_false_iff_not] at h2
      exact h2 (start_mem_findReachableNodes START_NODE g.links _ _)
  have hinit : START_NODE ∈ (initExplorationState g).discovered :=
    dwp_mem_area g (linkEndpoints g.links).length START_NODE none none emptyExplorationState
  constructor
  · intro st h
    induction h with
    | init => exact hinit
    | discover a f v hst hbar hfrom ih =>
        exact (dwp_mono g (discoveryFuel g) a f v _).1 ih
    | undiscover a hst ih => exact hstart _ a ih
    | reset hst ih => exact hinit
    | load hst ih => exact ih
  · intro st
    exact undiscoverArea_start g st

/-- Witness for C3: the initial scenario state is reachable, contains
the start zone, and undiscovering the start zone changes nothing. -/
theorem start_node_invariant_witness :
    ReachableState gScenario stScenario ∧
    START_NODE ∈ stScenario.discovered ∧
    undiscoverArea gScenario START_NODE stScenario = stScenario :=
  ⟨ReachableState.init,
   (start_node_invariant gScenario).1 stScenario ReachableState.init,
   (start_node_invariant gScenario).2 stScenario⟩

/-! BFS soundness: everything findReachableNodes returns is reachable
from the start node through discovered links. -/

theorem keyReach_mono {links : List Link} {dl S S' : List String} (hS : S ⊆ S') :
    ∀ {a b : String}, KeyReach links dl S a b → KeyReach links dl S' a b := by
  intro a b h
  induction h with
  | refl ha => exact KeyReach.refl (hS ha)
  | fwd hab hl hsrc htS hkey ih => exact KeyReach.fwd ih hl hsrc (hS htS) hkey
  | back hab hl htgt how hsS hkey ih => exact KeyReach.back ih hl htgt how (hS hsS) hkey

theorem keyReach_end_mem {links : List Link} {dl S : List String} :
    ∀ {a b : String}, KeyReach links dl S a b → b ∈ S := by
  intro a b h
  induction h with
  | refl ha => exact ha
  | fwd hab hl hsrc htS hkey ih => exact htS
  | back hab hl htgt how hsS hkey ih => exact hsS

theorem append_invariant {links0 : List Link} {dl : List String} {start : String}
    {S : List String} {y : String}
    (hinv : ∀ x ∈ S, KeyReach links0 dl S start x)
    (hy : KeyReach links0 dl (S ++ [y]) start y) :
    ∀ x ∈ S ++ [y], KeyReach links0 dl (S ++ [y]) start x := by
  intro x hx
  rcases List.mem_append.mp hx with h | h
  · exact keyReach_mono (fun _ hh => List.mem_append_left _ hh) (hinv x h)
  · rw [List.mem_singleton.mp h]
    exact hy

theorem reachStep_invariant {links0 : List Link} {disc dl : List String}
    {start c : String} {l : Link} (hl : l ∈ links0)
    {acc : List String × List String} (hc : c ∈ acc.1)
    (hinv : ∀ x ∈ acc.1, KeyReach links0 dl acc.1 start x) :
    ∀ x ∈ (reachStep disc dl c acc l).1,
      KeyReach links0 dl (reachStep disc dl c acc l).1 start x := by
  unfold reachStep
  dsimp only
  split
  · next h1 =>
    have hnew1 : ∀ x ∈ acc.1 ++ [l.target],
        KeyReach links0 dl (acc.1 ++ [l.target]) start x := by
      apply append_invariant hinv
      exact KeyReach.fwd (keyReach_mono (fun _ hh => List.mem_append_left _ hh) (hinv c hc))
        hl h1.1 (List.mem_append_right _ (List.mem_singleton.mpr rfl)) h1.2.2.2
    have hc1 : c ∈ acc.1 ++ [l.target] := List.mem_append_left _ hc
    split
    · next h2 =>
      apply append_invariant hnew1
      exact KeyReach.back
        (keyReach_mono (fun _ hh => List.mem_append_left _ hh) (hnew1 c hc1))
        hl h2.1 h2.2.1 (List.mem_append_right _ (List.mem_singleton.mpr rfl)) h2.2.2.2.2
    · exact hnew1
  · split
    · next h2 =>
      apply append_invariant hinv
      exact KeyReach.back (keyReach_mono (fun _ hh => List.mem_append_left _ hh) (hinv c hc))
        hl h2.1 h2.2.1 (List.mem_append_right _ (List.mem_singleton.mpr rfl)) h2.2.2.2.2
    · exact hinv

theorem reachStep_snd_mem {disc dl : List String} {c : String}
    {acc : List String × List String} {l : Link}
    (h : ∀ y ∈ acc.2, y ∈ acc.1) :
    ∀ y ∈ (reachStep disc dl c acc l).2, y ∈ (reachStep disc dl c acc l).1 := by
  unfold reachStep
  dsimp only
  split
  · split
    · intro y hy
      rcases List.mem_append.mp hy with hy | hy
      · rcases List.mem_append.mp hy with hy | hy
        · exact List.mem_append_left _ (List.mem_append_left _ (h y hy))
        · exact List.mem_append_left _ (List.mem_append_right _ hy)
      · exact List.mem_append_right _ hy
    · intro y hy
      rcases List.mem_append.mp hy with hy | hy
      · exact List.mem_append_left _ (h y hy)
      · exact List.mem_append_right _ hy
  · split
    · intro y hy
      rcases List.mem_append.mp hy with hy | hy
      · exact List.mem_append_left _ (h y hy)
      · exact List.mem_append_right _ hy
    · exact h

theorem foldl_reachStep_snd_mem {disc dl : List String} {c : String} :
    ∀ (ls : List Link) (acc : List String × List String),
      (∀ y ∈ acc.2, y ∈ acc.1) →
      ∀ y ∈ (ls.foldl (reachStep disc dl c) acc).2, y ∈ (ls.foldl (reachStep disc dl c) acc).1
  | [], _, h => h
  | l :: ls, acc, h =>
      foldl_reachStep_snd_mem ls (reachStep disc dl c acc l) (reachStep_snd_mem h)

theorem foldl_reachStep_invariant {links0 : List Link} {disc dl : List String}
    {start c : String} :
    ∀ (ls : List Link), (∀ l ∈ ls, l ∈ links0) →
      ∀ (acc : List String × List String), c ∈ acc.1 →
      (∀ x ∈ acc.1, KeyReach links0 dl acc.1 start x) →
      ∀ x ∈ (ls.foldl (reachStep disc dl c) acc).1,
        KeyReach links0 dl (ls.foldl (reachStep disc dl c) acc).1 start x
  | [], _, _, _, hinv => hinv
  | l :: ls, hsub, acc, hc, hinv =>
      foldl_reachStep_invariant ls (fun l' hl' => hsub l' (List.mem_cons_of_mem _ hl'))
        (reachStep disc dl c acc l)
        (reachStep_fst_subset disc dl c acc l hc)
        (reachStep_invariant (hsub l (List.mem_cons_self _ _)) hc hinv)

theorem findReachAux_sound (links : List Link) (disc dl : List String) (start : String) :
    ∀ (fuel : Nat) (queue reach : List String),
      (∀ q ∈ queue, q ∈ reach) →
      (∀ x ∈ reach, KeyReach links dl reach start x) →
      ∀ x ∈ findReachAux links disc dl fuel queue reach,
        KeyReach links dl (findReachAux links disc dl fuel queue reach) start x
  | 0, _, _, _, hinv => hinv
  | _ + 1, [], _, _, hinv => hinv
  | fuel + 1, c :: rest, reach, hq, hinv => by
      show ∀ x ∈ findReachAux links disc dl fuel _ _, _
      apply findReachAux_sound links disc dl start fuel _ _ ?_ ?_
      · intro q hqm
        rcases List.mem_append.mp hqm with h | h
        · exact foldl_reachStep_fst_subset disc dl c links (reach, [])
            (hq q (List.mem_cons_of_mem _ h))
        · exact foldl_reachStep_snd_mem links (reach, []) (fun y hy => absurd hy
            (List.not_mem_nil y)) q h
      · exact foldl_reachStep_invariant links (fun _ h => h) (reach, [])
          (hq c (List.mem_cons_self _ _)) hinv

theorem findReachableNodes_sound (start : String) (links : List Link)
    (disc dl : List String) :
    ∀ x ∈ findReachableNodes start links disc dl,
      KeyReach links dl (findReachableNodes start links disc dl) start x := by
  apply findReachAux_sound links disc dl start (disc.length + 2) [start] [start]
  · exact fun q hq => hq
  · intro x hx
    rw [List.mem_singleton.mp hx]
    exact KeyReach.refl (List.mem_singleton.mpr rfl)

/-! Transporting a BFS path into the post-removal state. -/

theorem keyInvolves_false_of_ne {s t n : String} (hs : BarFree s) (ht : BarFree t)
    (hsn : s ≠ n) (htn : t ≠ n) : keyInvolves (makeLinkId s t) n = false := by
  rw [keyInvolves_makeLinkId hs ht]
  simp [hsn, htn]

theorem keyReach_to_discLinkReach {g : GraphData} {dl1 S : List String}
    {st' : ExplorationState} (hWF : WFGraph g)
    (hdl : ∀ s t : String, BarFree s → BarFree t → s ∈ S → t ∈ S →
      makeLinkId s t ∈ dl1 → makeLinkId s t ∈ st'.discoveredLinks) :
    ∀ {x : String}, KeyReach g.links dl1 S START_NODE x → DiscLinkReach g st' x := by
  intro x h
  induction h with
  | refl ha => exact DiscLinkReach.start
  | @fwd b l hab hl hsrc htS hkey ih =>
      have hbS : b ∈ S := keyReach_end_mem hab
      have hsS : l.source ∈ S := hsrc ▸ hbS
      refine DiscLinkReach.fwd ih hl hsrc ?_
      rcases hkey with hk | hk
      · exact Or.inl (hdl l.source l.target (hWF l hl).1 (hWF l hl).2.1 hsS htS hk)
      · exact Or.inr (hdl l.target l.source (hWF l hl).2.1 (hWF l hl).1 htS hsS hk)
  | @back b l hab hl htgt how hsS hkey ih =>
      have hbS : b ∈ S := keyReach_end_mem hab
      have htS : l.target ∈ S := htgt ▸ hbS
      refine DiscLinkReach.back ih hl htgt how ?_
      rcases hkey with hk | hk
      · exact Or.inl (hdl l.source l.target (hWF l hl).1 (hWF l hl).2.1 hsS htS hk)
      · exact Or.inr (hdl l.target l.source (hWF l hl).2.1 (hWF l hl).1 htS hsS hk)

/-- C2: after undiscovering a non-start zone, every zone still
discovered is reachable from the start zone through links recorded in
discoveredLinks (either direction, forward always and backward only when
not one-way), computed by the single BFS plus one batch removal; a
previously discovered zone failing this reachability test is absent. -/
theorem undiscoverArea_sound (g : GraphData) (st : ExplorationState) (z : String)
    (hWF : WFGraph g) (hz : ¬(z = START_NODE)) :
    (∀ n ∈ (undiscoverArea g z st).discovered, DiscLinkReach g (undiscoverArea g z st) n) ∧
    (∀ n, n ∈ st.discovered → ¬DiscLinkReach g (undiscoverArea g z st) n →
      n ∉ (undiscoverArea g z st).discovered) := by
  have main : ∀ n ∈ (undiscoverArea g z st).discovered,
      DiscLinkReach g (undiscoverArea g z st) n := by
    intro n hn
    rw [undiscoverArea_eq g z st hz] at hn ⊢
    have hmem := (batch_discovered_mem _ _ n).mp hn
    have hnR : n ∈ findReachableNodes START_NODE g.links
        (undiscoverOne st z).discovered (undiscoverOne st z).discoveredLinks := by
      by_contra hno
      exact hmem.2 (List.mem_filter.mpr ⟨hmem.1, by simp [hno]⟩)
    have hsound := findReachableNodes_sound START_NODE g.links
      (undiscoverOne st z).discovered (undiscoverOne st z).discoveredLinks n hnR
    apply keyReach_to_discLinkReach hWF ?_ hsound
    intro s t hbs hbt hsS htS hk
    refine (batch_dl_mem _ _ _).mpr ⟨hk, ?_⟩
    intro m hm
    have h2 := (List.mem_filter.mp hm).2
    rw [Bool.not_eq_true', decide_eq_false_iff_not] at h2
    exact keyInvolves_false_of_ne hbs hbt (fun he => h2 (he ▸ hsS)) (fun he => h2 (he ▸ htS))
  exact ⟨main, fun n _ hnr hmem => hnr (main n hmem)⟩

/-- Witness for C2: undiscover Limgrave on the tagged scenario state;
the start zone remains and is link-reachable in the resulting state. -/
theorem undiscoverArea_sound_witness :
    WFGraph gScenario ∧ ¬("Limgrave" = START_NODE) ∧
    "Roundtable Hold" ∈ (undiscoverArea gScenario "Limgrave" stScenarioTagged).discovered ∧
    DiscLinkReach gScenario (undiscoverArea gScenario "Limgrave" stScenarioTagged)
      "Roundtable Hold" :=
  ⟨by decide, by decide, by decide,
   (undiscoverArea_sound gScenario stScenarioTagged "Limgrave" (by decide) (by decide)).1
     "Roundtable Hold" (by decide)⟩

/-! Behaviour of the discovery entry points on ids outside the graph. -/

theorem recordFromLink_none (st : ExplorationState) (a : String) (v : Option Link) :
    recordFromLink st a none v = st := rfl

theorem discoverStep_id_of_no_touch {rec : String → Option String → Option Link →
      ExplorationState → ExplorationState} {a : String} {l : Link}
    (hs : l.source ≠ a) (ht : l.target ≠ a) (st : ExplorationState) :
    discoverStep rec a l st = st := by
  unfold discoverStep
  by_cases h1 : l.type ≠ "preexisting"
  · rw [if_pos h1]
  · rw [if_neg h1, if_neg hs, if_neg (fun hc => ht hc.1)]

theorem processLinks_id_of_no_touch {rec : String → Option String → Option Link →
      ExplorationState → ExplorationState} {a : String} :
    ∀ (ls : List Link) (st : ExplorationState),
      (∀ l ∈ ls, l.source ≠ a ∧ l.target ≠ a) → processLinks rec a ls st = st
  | [], _, _ => rfl
  | l :: ls, st, h => by
      show processLinks rec a ls (discoverStep rec a l st) = st
      rw [discoverStep_id_of_no_touch (h l (List.mem_cons_self _ _)).1
        (h l (List.mem_cons_self _ _)).2 st]
      exact processLinks_id_of_no_touch ls st (fun l' hl' => h l' (List.mem_cons_of_mem _ hl'))

/-- Counterexample to C9 as stated: discovering an id absent from the
node list is not a no-op; the unknown id is added to the discovered
set. -/
theorem discoverArea_unknown_changes_state :
    "Limgrave" ∉ gUnknown.nodes ∧
    discoverArea gUnknown "Limgrave" none none stUnknown ≠ stUnknown := by
  constructor
  · decide
  · decide

/-- C9 amended: neither entry point can throw (both are total functions
of the state); undiscoverArea with an id that is undiscovered and not
mentioned by any link or key leaves the state unchanged provided every
discovered zone passes the start-reachability test, but discoverArea
with such an id is not a no-op: it appends the unknown id to the
discovered set. -/
theorem unknown_id_discover_undiscover (g : GraphData) (z : String)
    (st : ExplorationState) (hzs : ¬(z = START_NODE)) (hzd : z ∉ st.discovered)
    (hnl : ∀ l ∈ g.links, l.source ≠ z ∧ l.target ≠ z)
    (hkeys : ∀ k ∈ st.discoveredLinks, keyInvolves k z = false)
    (hreach : ∀ n ∈ st.discovered,
      n ∈ findReachableNodes START_NODE g.links st.discovered st.discoveredLinks) :
    undiscoverArea g z st = st ∧
    discoverArea g z none none st = { st with discovered := st.discovered ++ [z] } := by
  constructor
  · have h1 : undiscoverOne st z = st := by
      unfold undiscoverOne undiscoverNode
      rw [if_neg hzd]
      unfold undiscoverLinksForNode
      have : st.discoveredLinks.filter (fun k => !(keyInvolves k z)) = st.discoveredLinks := by
        apply List.filter_eq_self.mpr
        intro k hk
        rw [hkeys k hk]
        rfl
      rw [this]
    rw [undiscoverArea_eq g z st hzs, h1]
    have h2 : st.discovered.filter
        (fun n => !(decide (n ∈ findReachableNodes START_NODE g.links
          st.discovered st.discoveredLinks))) = [] := by
      apply List.filter_eq_nil_iff.mpr
      intro n hn
      simp [hreach n hn]
    rw [h2]
    rfl
  · have hrw : discoverArea g z none none st =
        processLinks (discoverWithPreexisting g (linkEndpoints g.links).length) z g.links
          (discoverNode st z) := by
      show discoverWithPreexisting g ((linkEndpoints g.links).length + 1) z none none st = _
      unfold discoverWithPreexisting
      dsimp only
      rw [if_neg hzd, recordFromLink_none]
    rw [hrw, processLinks_id_of_no_touch g.links (discoverNode st z) hnl]
    unfold discoverNode addToSet
    rw [if_neg hzd]

/-- Witness for the amended C9 on the scenario state with an id unknown
to the graph. -/
theorem unknown_id_discover_undiscover_witness :
    ¬("Nowhere" = START_NODE) ∧ "Nowhere" ∉ stScenarioTagged.discovered ∧
    undiscoverArea gScenario "Nowhere" stScenarioTagged = stScenarioTagged ∧
    discoverArea gScenario "Nowhere" none none stScenarioTagged =
      { stScenarioTagged with discovered := stScenarioTagged.discovered ++ ["Nowhere"] } :=
  ⟨by decide, by decide,
   (unknown_id_discover_undiscover gScenario "Nowhere" stScenarioTagged (by decide)
      (by decide) (by decide) (by decide) (by decide)).1,
   (unknown_id_discover_undiscover gScenario "Nowhere" stScenarioTagged (by decide)
      (by decide) (by decide) (by decide) (by decide)).2⟩

/-! The discovered-link key invariant (C4). -/

theorem barFree_START : BarFree START_NODE := by decide

theorem linkInv_discoverLink {st : ExplorationState} {s t : String} {b : Bool}
    (hinv : LinkInv st) (hbs : BarFree s) (hbt : BarFree t)
    (hs : s ∈ st.discovered) (ht : t ∈ st.discovered) :
    LinkInv (discoverLink st s t b) := by
  intro k hk
  rw [discoverLink_discovered]
  rcases mem_discoverLink.mp hk with rfl | ⟨hb, rfl⟩ | hk
  · exact ⟨s, t, rfl, hbs, hbt, hs, ht⟩
  · exact ⟨t, s, rfl, hbt, hbs, ht, hs⟩
  · exact hinv k hk

theorem linkInv_discoverNode {st : ExplorationState} {n : String} (hinv : LinkInv st) :
    LinkInv (discoverNode st n) := by
  intro k hk
  obtain ⟨s, t, he, hbs, hbt, hs, ht⟩ := hinv k hk
  exact ⟨s, t, he, hbs, hbt, (discoverNode_mono st n).1 hs, (discoverNode_mono st n).1 ht⟩

theorem linkInv_record_then_discover {st : ExplorationState} {x a : String} {b : Bool}
    (hinv : LinkInv st) (hx : x ∈ st.discovered) (hbx : BarFree x) (hba : BarFree a) :
    LinkInv (discoverNode (discoverLink st x a b) a) := by
  intro k hk
  have hk' : k ∈ (discoverLink st x a b).discoveredLinks := hk
  rcases mem_discoverLink.mp hk' with rfl | ⟨hb, rfl⟩ | hkk
  · exact ⟨x, a, rfl, hbx, hba, subset_addToSet _ _ hx, mem_addToSet_self _ _⟩
  · exact ⟨a, x, rfl, hba, hbx, mem_addToSet_self _ _, subset_addToSet _ _ hx⟩
  · obtain ⟨s, t, he, hbs, hbt, hs, ht⟩ := hinv k hkk
    exact ⟨s, t, he, hbs, hbt, subset_addToSet _ _ hs, subset_addToSet _ _ ht⟩

theorem discoverStep_linkInv {g : GraphData} (hWF : WFGraph g)
    {rec : String → Option String → Option Link → ExplorationState → ExplorationState}
    (hrec : ∀ a f v st, BarFree a →
      (∀ x, f = some x → x ∈ st.discovered ∧ BarFree x) → LinkInv st →
      LinkInv (rec a f v st))
    {a : String} {l : Link} {st : ExplorationState} (hl : l ∈ g.links)
    (ha : a ∈ st.discovered) (hba : BarFree a) (hinv : LinkInv st) :
    LinkInv (discoverStep rec a l st) := by
  unfold discoverStep
  by_cases h1 : l.type ≠ "preexisting"
  · rw [if_pos h1]
    exact hinv
  · rw [if_neg h1]
    by_cases h2 : l.source = a
    · rw [if_pos h2]
      by_cases h3 : l.target ∉ st.discovered
      · rw [if_pos h3]
        exact hrec _ _ _ _ (hWF l hl).2.1
          (fun x hx => by injection hx with h; exact h ▸ ⟨ha, hba⟩) hinv
      · rw [if_neg h3]
        exact linkInv_discoverLink hinv hba (hWF l hl).2.1 ha (not_not.mp h3)
    · rw [if_neg h2]
      by_cases h4 : l.target = a ∧ l.oneWay = false
      · rw [if_pos h4]
        by_cases h5 : l.source ∉ st.discovered
        · rw [if_pos h5]
          exact hrec _ _ _ _ (hWF l hl).1
            (fun x hx => by injection hx with h; exact h ▸ ⟨ha, hba⟩) hinv
        · rw [if_neg h5]
          exact linkInv_discoverLink hinv hba (hWF l hl).1 ha (not_not.mp h5)
      · rw [if_neg h4]
        exact hinv

theorem processLinks_linkInv {g : GraphData} (hWF : WFGraph g)
    {rec : String → Option String → Option Link → ExplorationState → ExplorationState}
    (hmono : MonoRec rec)
    (hrec : ∀ a f v st, BarFree a →
      (∀ x, f = some x → x ∈ st.discovered ∧ BarFree x) → LinkInv st →
      LinkInv (rec a f v st)) (a : String) :
    ∀ (ls : List Link), (∀ l ∈ ls, l ∈ g.links) → ∀ (st : ExplorationState),
      a ∈ st.discovered → BarFree a → LinkInv st →
      LinkInv (processLinks rec a ls st)
  | [], _, _, _, _, hinv => hinv
  | l :: ls, hsub, st, ha, hba, hinv =>
      processLinks_linkInv hWF hmono hrec a ls
        (fun l' hl' => hsub l' (List.mem_cons_of_mem _ hl'))
        (discoverStep rec a l st)
        ((discoverStep_mono hmono a l st).1 ha) hba
        (discoverStep_linkInv hWF hrec (hsub l (List.mem_cons_self _ _)) ha hba hinv)

theorem dwp_linkInv (g : GraphData) (hWF : WFGraph g) :
    ∀ (fuel : Nat) (a : String) (f : Option String) (v : Option Link)
      (st : ExplorationState), BarFree a →
      (∀ x, f = some x → x ∈ st.discovered ∧ BarFree x) → LinkInv st →
      LinkInv (discoverWithPreexisting g fuel a f v st)
  | 0, _, _, _, _, _, _, hinv => hinv
  | fuel + 1, a, f, v, st, hba, hf, hinv => by
      unfold discoverWithPreexisting
      dsimp only
      have hrecord : ∀ b : Bool, (a ∈ st.discovered → LinkInv (recordFromLink st a f v)) ∧
          (a ∉ st.discovered → LinkInv (discoverNode (recordFromLink st a f v) a)) := by
        intro _
        cases f with
        | none =>
            rw [recordFromLink_none]
            exact ⟨fun _ => hinv, fun _ => linkInv_discoverNode hinv⟩
        | some x =>
            unfold recordFromLink
            dsimp only
            by_cases hx : x = ""
            · rw [if_pos hx]
              exact ⟨fun _ => hinv, fun _ => linkInv_discoverNode hinv⟩
            · rw [if_neg hx]
              refine ⟨fun hmem => ?_, fun _ => ?_⟩
              · exact linkInv_discoverLink hinv (hf x rfl).2 hba (hf x rfl).1 hmem
              · exact linkInv_record_then_discover hinv (hf x rfl).1 (hf x rfl).2 hba
      split
      · next hmem => exact (hrecord true).1 hmem
      · next hmem =>
          exact processLinks_linkInv hWF (dwp_mono g fuel) (dwp_linkInv g hWF fuel) a
            g.links (fun _ h => h) _ (mem_addToSet_self _ _) hba ((hrecord true).2 hmem)

theorem linkInv_undiscoverArea {g : GraphData} {st : ExplorationState} {z : String}
    (hinv : LinkInv st) : LinkInv (undiscoverArea g z st) := by
  by_cases hz : z = START_NODE
  · rw [hz, undiscoverArea_start]
    exact hinv
  · rw [undiscoverArea_eq g z st hz]
    intro k hk
    have h1 := (batch_dl_mem _ _ k).mp hk
    have h2 := undiscoverOne_dl_mem.mp h1.1
    obtain ⟨s, t, rfl, hbs, hbt, hs, ht⟩ := hinv _ h2.1
    have hz2 := h2.2
    rw [keyInvolves_makeLinkId hbs hbt] at hz2
    simp only [Bool.or_eq_false_iff, decide_eq_false_iff_not] at hz2
    refine ⟨s, t, rfl, hbs, hbt, ?_, ?_⟩
    · refine (batch_discovered_mem _ _ s).mpr
        ⟨undiscoverOne_discovered_mem.mpr ⟨hs, hz2.1⟩, fun hsL => ?_⟩
      have := h1.2 s hsL
      rw [keyInvolves_makeLinkId hbs hbt] at this
      simp at this
    · refine (batch_discovered_mem _ _ t).mpr
        ⟨undiscoverOne_discovered_mem.mpr ⟨ht, hz2.2⟩, fun htL => ?_⟩
      have := h1.2 t htL
      rw [keyInvolves_makeLinkId hbs hbt] at this
      simp at this

/-- C4: in every reachable exploration state, each stored link key has
both of its component zones discovered. -/
theorem discoveredLinks_endpoints_discovered (g : GraphData) (hWF : WFGraph g)
    (st : ExplorationState) (h : ReachableState g st) :
    ∀ k ∈ st.discoveredLinks, ∃ s t, k = makeLinkId s t ∧
      s ∈ st.discovered ∧ t ∈ st.discovered := by
  have hinv : LinkInv st := by
    induction h with
    | init =>
        exact dwp_linkInv g hWF _ _ _ _ _ barFree_START
          (fun x hx => nomatch hx) (fun k hk => absurd hk (List.not_mem_nil k))
    | discover a f v hst hba hf ih => exact dwp_linkInv g hWF _ a f v _ hba hf ih
    | undiscover a hst ih => exact linkInv_undiscoverArea ih
    | reset hst ih =>
        exact dwp_linkInv g hWF _ _ _ _ _ barFree_START
          (fun x hx => nomatch hx) (fun k hk => absurd hk (List.not_mem_nil k))
    | load hst ih => exact ih
  intro k hk
  obtain ⟨s, t, he, _, _, hs, ht⟩ := hinv k hk
  exact ⟨s, t, he, hs, ht⟩

/-- Witness for C4: the key recorded while discovering Limgrave from
Roundtable Hold decomposes into two discovered zones. -/
theorem discoveredLinks_endpoints_discovered_witness :
    WFGraph gScenario ∧
    (∃ s t, "Roundtable Hold|Limgrave" = makeLinkId s t ∧
      s ∈ stScenario2.discovered ∧ t ∈ stScenario2.discovered) :=
  ⟨by decide,
   discoveredLinks_endpoints_discovered gScenario (by decide) stScenario2
     (ReachableState.discover "Limgrave" (some "Roundtable Hold") (some linkRT)
       ReachableState.init (by decide)
       (fun f hf => by injection hf with h; subst h; exact ⟨by decide, by decide⟩))
     "Roundtable Hold|Limgrave" (by decide)⟩

/-! Counting lemmas for the propagation termination measure. -/

theorem filter_length_le_of_imp (p q : String → Bool) :
    ∀ xs : List String, (∀ x ∈ xs, p x = true → q x = true) →
      (xs.filter p).length ≤ (xs.filter q).length
  | [], _ => Nat.le_refl 0
  | x :: xs, h => by
      have ih := filter_length_le_of_imp p q xs
        (fun y hy => h y (List.mem_cons_of_mem _ hy))
      rw [List.filter_cons, List.filter_cons]
      by_cases hp : p x = true
      · rw [if_pos hp, if_pos (h x (List.mem_cons_self _ _) hp)]
        simpa using ih
      · rw [if_neg hp]
        split
        · exact Nat.le_succ_of_le ih
        · exact ih

theorem filter_length_lt_of_imp (p q : String → Bool) :
    ∀ (xs : List String) (y : String), (∀ x ∈ xs, p x = true → q x = true) →
      y ∈ xs → q y = true → p y = false →
      (xs.filter p).length < (xs.filter q).length
  | [], y, _, hy, _, _ => absurd hy (List.not_mem_nil y)
  | x :: xs, y, h, hy, hqy, hpy => by
      rw [List.filter_cons, List.filter_cons]
      rcases List.mem_cons.mp hy with rfl | hy2
      · rw [if_neg (by rw [hpy]; decide), if_pos hqy]
        exact Nat.lt_succ_of_le (filter_length_le_of_imp p q xs
          (fun z hz => h z (List.mem_cons_of_mem _ hz)))
      · have ih := filter_length_lt_of_imp p q xs y
          (fun z hz => h z (List.mem_cons_of_mem _ hz)) hy2 hqy hpy
        by_cases hp : p x = true
        · rw [if_pos hp, if_pos (h x (List.mem_cons_self _ _) hp)]
          simpa using ih
        · rw [if_neg hp]
          split
          · exact Nat.lt_succ_of_lt ih
          · exact ih

theorem mem_linkEndpoints : ∀ {links : List Link} {l : Link}, l ∈ links →
    l.source ∈ linkEndpoints links ∧ l.target ∈ linkEndpoints links := by
  intro links
  induction links with
  | nil => intro l hl; exact absurd hl (List.not_mem_nil l)
  | cons x xs ih =>
      intro l hl
      show l.source ∈ x.source :: x.target :: linkEndpoints xs ∧
        l.target ∈ x.source :: x.target :: linkEndpoints xs
      rcases List.mem_cons.mp hl with rfl | hl2
      · exact ⟨List.mem_cons_self _ _, List.mem_cons_of_mem _ (List.mem_cons_self _ _)⟩
      · exact ⟨List.mem_cons_of_mem _ (List.mem_cons_of_mem _ (ih hl2).1),
          List.mem_cons_of_mem _ (List.mem_cons_of_mem _ (ih hl2).2)⟩

theorem undiscCount_le_of_subset {g : GraphData} {S1 S2 : List String}
    (h : ∀ x, x ∈ S1 → x ∈ S2) : undiscCount g S2 ≤ undiscCount g S1 := by
  apply filter_length_le_of_imp
  intro x _ hx
  rw [decide_eq_true_eq] at hx ⊢
  exact fun hmem => hx (h x hmem)

theorem undiscCount_lt {g : GraphData} {S : List String} {e : String}
    (he : e ∈ linkEndpoints g.links) (hne : e ∉ S) :
    undiscCount g (e :: S) < undiscCount g S := by
  apply filter_length_lt_of_imp _ _ _ e
  · intro x _ hx
    rw [decide_eq_true_eq] at hx ⊢
    exact fun hmem => hx (List.mem_cons_of_mem _ hmem)
  · exact he
  · rw [decide_eq_true_eq]
    exact hne
  · rw [decide_eq_false_iff_not]
    exact fun hmem => hmem (List.mem_cons_self _ _)

theorem undiscCount_congr {g : GraphData} {S1 S2 : List String}
    (h : ∀ x, x ∈ S1 ↔ x ∈ S2) : undiscCount g S1 = undiscCount g S2 :=
  Nat.le_antisymm (undiscCount_le_of_subset (fun x hx => (h x).mpr hx))
    (undiscCount_le_of_subset (fun x hx => (h x).mp hx))

theorem undiscCount_pos {g : GraphData} {S : List String} {e : String}
    (he : e ∈ linkEndpoints g.links) (hne : e ∉ S) : 1 ≤ undiscCount g S := by
  have : e ∈ (linkEndpoints g.links).filter (fun x => decide (x ∉ S)) :=
    List.mem_filter.mpr ⟨he, by rw [decide_eq_true_eq]; exact hne⟩
  exact List.length_pos.mpr (List.ne_nil_of_mem this)

theorem closedAt_mono {g : GraphData} {S S' : List String} {x : String}
    (hS : ∀ y, y ∈ S → y ∈ S') (h : closedAt g S x) : closedAt g S' x := by
  intro l hl hpre
  exact ⟨fun hs => hS _ ((h l hl hpre).1 hs), fun ht how => hS _ ((h l hl hpre).2 ht how)⟩

theorem keyRecordedAt_mono {g : GraphData} {dl dl' : List String} {a : String}
    (hdl : ∀ k, k ∈ dl → k ∈ dl') (h : keyRecordedAt g dl a) : keyRecordedAt g dl' a := by
  intro l hl hpre
  refine ⟨fun hs => ⟨hdl _ ((h l hl hpre).1 hs).1,
    fun how => hdl _ (((h l hl hpre).1 hs).2 how)⟩, fun ht how => ?_⟩
  exact ⟨hdl _ ((h l hl hpre).2 ht how).1, hdl _ ((h l hl hpre).2 ht how).2⟩

/-! Closure of the scanned area after one links pass (used both for the
recursion and for propagatePreexistingDiscoveries). -/

theorem processLinks_area_closed (g : GraphData) (fuel : Nat) (a : String) :
    ∀ (ls : List Link), (∀ l ∈ ls, l ∈ g.links) → ∀ (st : ExplorationState),
      undiscCount g st.discovered ≤ fuel →
      ∀ l ∈ ls, l.type = "preexisting" →
        (l.source = a →
          l.target ∈ (processLinks (discoverWithPreexisting g fuel) a ls st).discovered) ∧
        (l.target = a → l.oneWay = false →
          l.source ∈ (processLinks (discoverWithPreexisting g fuel) a ls st).discovered)
  | [], _, _, _ => fun l hl => absurd hl (List.not_mem_nil l)
  | l0 :: ls, hsub, st, hcount => by
      intro l hl hpre
      have hsub' : ∀ l' ∈ ls, l' ∈ g.links :=
        fun l' h => hsub l' (List.mem_cons_of_mem _ h)
      have hstep := discoverStep_mono (dwp_mono g fuel) a l0 st
      have hcount' : undiscCount g
          (discoverStep (discoverWithPreexisting g fuel) a l0 st).discovered ≤ fuel :=
        le_trans (undiscCount_le_of_subset (fun x hx => hstep.1 hx)) hcount
      rcases List.mem_cons.mp hl with rfl | hl2
      · have hmono := (processLinks_mono (dwp_mono g fuel) a ls
          (discoverStep (discoverWithPreexisting g fuel) a l st)).1
        have hcond : ¬(l.type ≠ "preexisting") := fun h => h hpre
        have hfwd : l.source = a → l.target ∈
            (discoverStep (discoverWithPreexisting g fuel) a l st).discovered := by
          intro hsrc
          unfold discoverStep
          rw [if_neg hcond, if_pos hsrc]
          by_cases h3 : l.target ∉ st.discovered
          · rw [if_pos h3]
            have h1 : 1 ≤ fuel := le_trans
              (undiscCount_pos (mem_linkEndpoints (hsub l (List.mem_cons_self _ _))).2 h3)
              hcount
            obtain ⟨f, rfl⟩ : ∃ f, fuel = f + 1 := ⟨fuel - 1, by omega⟩
            exact dwp_mem_area g f l.target (some a) (some l) st
          · rw [if_neg h3, discoverLink_discovered]
            exact not_not.mp h3
        constructor
        · exact fun hsrc => hmono (hfwd hsrc)
        · intro htgt how
          by_cases h2 : l.source = a
          · have hself : l.source = l.target := h2.trans htgt.symm
            rw [hself]
            exact hmono (hfwd h2)
          · have hmem : l.source ∈
                (discoverStep (discoverWithPreexisting g fuel) a l st).discovered := by
              unfold discoverStep
              rw [if_neg hcond, if_neg h2, if_pos ⟨htgt, how⟩]
              by_cases h5 : l.source ∉ st.discovered
              · rw [if_pos h5]
                have h1 : 1 ≤ fuel := le_trans
                  (undiscCount_pos
                    (mem_linkEndpoints (hsub l (List.mem_cons_self _ _))).1 h5) hcount
                obtain ⟨f, rfl⟩ : ∃ f, fuel = f + 1 := ⟨fuel - 1, by omega⟩
                exact dwp_mem_area g f l.source (some a) (some l) st
              · rw [if_neg h5, discoverLink_discovered]
                exact not_not.mp h5
            exact hmono hmem
      · exact processLinks_area_closed g fuel a ls hsub' _ hcount' l hl2 hpre

theorem recordFromLink_some {st : ExplorationState} {a f : String} {v : Option Link}
    (hf : ¬(f = "")) :
    recordFromLink st a (some f) v = discoverLink st f a (viaBidirectional v) := by
  unfold recordFromLink
  dsimp only
  rw [if_neg hf]

theorem viaBidirectional_some (l : Link) : viaBidirectional (some l) = !l.oneWay := rfl

theorem processLinks_area_keys (g : GraphData) (hWF : WFGraph g) (fuel : Nat) (a : String) :
    ∀ (ls : List Link), (∀ l ∈ ls, l ∈ g.links) → ∀ (st : ExplorationState),
      undiscCount g st.discovered ≤ fuel →
      ∀ l ∈ ls, l.type = "preexisting" →
        (l.source = a →
          makeLinkId a l.target ∈
            (processLinks (discoverWithPreexisting g fuel) a ls st).discoveredLinks ∧
          (l.oneWay = false → makeLinkId l.target a ∈
            (processLinks (discoverWithPreexisting g fuel) a ls st).discoveredLinks)) ∧
        (l.target = a → l.oneWay = false →
          makeLinkId a l.source ∈
            (processLinks (discoverWithPreexisting g fuel) a ls st).discoveredLinks ∧
          makeLinkId l.source a ∈
            (processLinks (discoverWithPreexisting g fuel) a ls st).discoveredLinks)
  | [], _, _, _ => fun l hl => absurd hl (List.not_mem_nil l)
  | l0 :: ls, hsub, st, hcount => by
      intro l hl hpre
      have hsub' : ∀ l' ∈ ls, l' ∈ g.links :=
        fun l' h => hsub l' (List.mem_cons_of_mem _ h)
      have hstep := discoverStep_mono (dwp_mono g fuel) a l0 st
      have hcount' : undiscCount g
          (discoverStep (discoverWithPreexisting g fuel) a l0 st).discovered ≤ fuel :=
        le_trans (undiscCount_le_of_subset (fun x hx => hstep.1 hx)) hcount
      rcases List.mem_cons.mp hl with rfl | hl2
      · have hmono := (processLinks_mono (dwp_mono g fuel) a ls
          (discoverStep (discoverWithPreexisting g fuel) a l st)).2.1
        have hcond : ¬(l.type ≠ "preexisting") := fun h => h hpre
        have hgl : l ∈ g.links := hsub l (List.mem_cons_self _ _)
        have hfwd : l.source = a →
            makeLinkId a l.target ∈
              (discoverStep (discoverWithPreexisting g fuel) a l st).discoveredLinks ∧
            (l.oneWay = false → makeLinkId l.target a ∈
              (discoverStep (discoverWithPreexisting g fuel) a l st).discoveredLinks) := by
          intro hsrc
          have hane : ¬(a = "") := hsrc ▸ (hWF l hgl).2.2.1
          unfold discoverStep
          rw [if_neg hcond, if_pos hsrc]
          by_cases h3 : l.target ∉ st.discovered
          · rw [if_pos h3]
            have h1 : 1 ≤ fuel := le_trans
              (undiscCount_pos (mem_linkEndpoints hgl).2 h3) hcount
            obtain ⟨f, rfl⟩ : ∃ f, fuel = f + 1 := ⟨fuel - 1, by omega⟩
            have hext := dwp_dl_extends_record g f l.target (some a) (some l) st
            rw [recordFromLink_some hane] at hext
            constructor
            · exact hext (mem_discoverLink_forward st a l.target _)
            · intro how
              have hb : viaBidirectional (some l) = true := by
                rw [viaBidirectional_some, how]
                rfl
              refine hext ?_
              rw [hb]
              exact mem_discoverLink_reverse st a l.target
          · rw [if_neg h3]
            constructor
            · exact mem_discoverLink_forward st a l.target _
            · intro how
              rw [how]
              exact mem_discoverLink_reverse st a l.target
        constructor
        · exact fun hsrc => ⟨hmono (hfwd hsrc).1, fun how => hmono ((hfwd hsrc).2 how)⟩
        · intro htgt how
          by_cases h2 : l.source = a
          · have hself : l.source = l.target := h2.trans htgt.symm
            constructor
            · rw [hself]
              exact hmono (hfwd h2).1
            · rw [hself]
              exact hmono ((hfwd h2).2 how)
          · have hane : ¬(a = "") := htgt ▸ (hWF l hgl).2.2.2
            have hkeys : makeLinkId a l.source ∈
                (discoverStep (discoverWithPreexisting g fuel) a l st).discoveredLinks ∧
                makeLinkId l.source a ∈
                (discoverStep (discoverWithPreexisting g fuel) a l st).discoveredLinks := by
              unfold discoverStep
              rw [if_neg hcond, if_neg h2, if_pos ⟨htgt, how⟩]
              by_cases h5 : l.source ∉ st.discovered
              · rw [if_pos h5]
                have h1 : 1 ≤ fuel := le_trans
                  (undiscCount_pos (mem_linkEndpoints hgl).1 h5) hcount
                obtain ⟨f, rfl⟩ : ∃ f, fuel = f + 1 := ⟨fuel - 1, by omega⟩
                have hext := dwp_dl_extends_record g f l.source (some a) (some l) st
                rw [recordFromLink_some hane] at hext
                have hb : viaBidirectional (some l) = true := by
                  rw [viaBidirectional_some, how]
                  rfl
                rw [hb] at hext
                exact ⟨hext (mem_discoverLink_forward st a l.source true),
                  hext (mem_discoverLink_reverse st a l.source)⟩
              · rw [if_neg h5]
                exact ⟨mem_discoverLink_forward st a l.source true,
                  mem_discoverLink_reverse st a l.source⟩
            exact ⟨hmono hkeys.1, hmono hkeys.2⟩
      · exact processLinks_area_keys g hWF fuel a ls hsub' _ hcount' l hl2 hpre

/-! Newly discovered zones come out preexisting-closed. -/

theorem discoverStep_new_closed (g : GraphData) (fuel : Nat)
    (hdwp : ∀ (a : String) (f : Option String) (v : Option Link) (st : ExplorationState),
      undiscCount g (a :: st.discovered) < fuel →
      ∀ x, x ∈ (discoverWithPreexisting g fuel a f v st).discovered → x ∉ st.discovered →
        closedAt g (discoverWithPreexisting g fuel a f v st).discovered x)
    {a : String} {l0 : Link} {st : ExplorationState} (hl0 : l0 ∈ g.links)
    (hcount : undiscCount g st.discovered ≤ fuel) :
    ∀ x, x ∈ (discoverStep (discoverWithPreexisting g fuel) a l0 st).discovered →
      x ∉ st.discovered →
      closedAt g (discoverStep (discoverWithPreexisting g fuel) a l0 st).discovered x := by
  intro x hx hnx
  unfold discoverStep at hx ⊢
  by_cases h1 : l0.type ≠ "preexisting"
  · rw [if_pos h1] at hx ⊢
    exact absurd hx hnx
  · rw [if_neg h1] at hx ⊢
    by_cases h2 : l0.source = a
    · rw [if_pos h2] at hx ⊢
      by_cases h3 : l0.target ∉ st.discovered
      · rw [if_pos h3] at hx ⊢
        have hlt : undiscCount g (l0.target :: st.discovered) < fuel :=
          lt_of_lt_of_le (undiscCount_lt (mem_linkEndpoints hl0).2 h3) hcount
        exact hdwp l0.target (some a) (some l0) st hlt x hx hnx
      · rw [if_neg h3] at hx ⊢
        rw [discoverLink_discovered] at hx
        exact absurd hx hnx
    · rw [if_neg h2] at hx ⊢
      by_cases h4 : l0.target = a ∧ l0.oneWay = false
      · rw [if_pos h4] at hx ⊢
        by_cases h5 : l0.source ∉ st.discovered
        · rw [if_pos h5] at hx ⊢
          have hlt : undiscCount g (l0.source :: st.discovered) < fuel :=
            lt_of_lt_of_le (undiscCount_lt (mem_linkEndpoints hl0).1 h5) hcount
          exact hdwp l0.source (some a) (some l0) st hlt x hx hnx
        · rw [if_neg h5] at hx ⊢
          rw [discoverLink_discovered] at hx
          exact absurd hx hnx
      · rw [if_neg h4] at hx ⊢
        exact absurd hx hnx

theorem processLinks_new_closed (g : GraphData) (fuel : Nat)
    (hdwp : ∀ (a : String) (f : Option String) (v : Option Link) (st : ExplorationState),
      undiscCount g (a :: st.discovered) < fuel →
      ∀ x, x ∈ (discoverWithPreexisting g fuel a f v st).discovered → x ∉ st.discovered →
        closedAt g (discoverWithPreexisting g fuel a f v st).discovered x) (a : String) :
    ∀ (ls : List Link), (∀ l ∈ ls, l ∈ g.links) → ∀ (st : ExplorationState),
      undiscCount g st.discovered ≤ fuel →
      ∀ x, x ∈ (processLinks (discoverWithPreexisting g fuel) a ls st).discovered →
        x ∉ st.discovered →
        closedAt g (processLinks (discoverWithPreexisting g fuel) a ls st).discovered x
  | [], _, _, _ => fun _ hx hnx => absurd hx hnx
  | l0 :: ls, hsub, st, hcount => fun x hx hnx => by
      have hsub' : ∀ l' ∈ ls, l' ∈ g.links :=
        fun l' h => hsub l' (List.mem_cons_of_mem _ h)
      have hstep := discoverStep_mono (dwp_mono g fuel) a l0 st
      have hcount' : undiscCount g
          (discoverStep (discoverWithPreexisting g fuel) a l0 st).discovered ≤ fuel :=
        le_trans (undiscCount_le_of_subset (fun y hy => hstep.1 hy)) hcount
      by_cases hx1 : x ∈ (discoverStep (discoverWithPreexisting g fuel) a l0 st).discovered
      · have hclosed := discoverStep_new_closed g fuel hdwp
          (hsub l0 (List.mem_cons_self _ _)) hcount x hx1 hnx
        exact closedAt_mono
          (fun y hy => (processLinks_mono (dwp_mono g fuel) a ls _).1 hy) hclosed
      · exact processLinks_new_closed g fuel hdwp a ls hsub' _ hcount' x hx hx1

theorem dwp_new_closed (g : GraphData) :
    ∀ (fuel : Nat) (a : String) (f : Option String) (v : Option Link)
      (st : ExplorationState),
      undiscCount g (a :: st.discovered) < fuel →
      ∀ x, x ∈ (discoverWithPreexisting g fuel a f v st).discovered → x ∉ st.discovered →
        closedAt g (discoverWithPreexisting g fuel a f v st).discovered x
  | 0 => fun a f v st hcount => absurd hcount (Nat.not_lt_zero _)
  | fuel + 1 => fun a f v st hcount x hx hnx => by
      unfold discoverWithPreexisting at hx ⊢
      dsimp only at hx ⊢
      by_cases hmem : a ∈ st.discovered
      · rw [if_pos hmem] at hx ⊢
        rw [recordFromLink_discovered] at hx
        exact absurd hx hnx
      · rw [if_neg hmem] at hx ⊢
        have hdisc2 : (discoverNode (recordFromLink st a f v) a).discovered =
            addToSet st.discovered a := by
          unfold discoverNode
          rw [recordFromLink_discovered]
        have hcong : undiscCount g (addToSet st.discovered a) =
            undiscCount g (a :: st.discovered) :=
          undiscCount_congr (fun y => by rw [mem_addToSet, List.mem_cons])
        have hc2 : undiscCount g
            (discoverNode (recordFromLink st a f v) a).discovered ≤ fuel := by
          rw [hdisc2, hcong]
          omega
        by_cases hx2 : x = a
        · subst hx2
          intro l hl hpre
          exact processLinks_area_closed g fuel x g.links (fun _ h => h) _ hc2 l hl hpre
        · have hx3 : x ∉ (discoverNode (recordFromLink st a f v) a).discovered := by
            rw [hdisc2]
            intro hxx
            rcases mem_addToSet.mp hxx with h | h
            · exact hx2 h
            · exact hnx h
          exact processLinks_new_closed g fuel (dwp_new_closed g fuel) a g.links
            (fun _ h => h) _ hc2 x hx hx3

/-! Newly discovered zones come out with all their preexisting link keys
recorded. -/

theorem discoverStep_new_keys (g : GraphData) (fuel : Nat)
    (hdwp : ∀ (a : String) (f : Option String) (v : Option Link) (st : ExplorationState),
      undiscCount g (a :: st.discovered) < fuel →
      ∀ x, x ∈ (discoverWithPreexisting g fuel a f v st).discovered → x ∉ st.discovered →
        keyRecordedAt g (discoverWithPreexisting g fuel a f v st).discoveredLinks x)
    {a : String} {l0 : Link} {st : ExplorationState} (hl0 : l0 ∈ g.links)
    (hcount : undiscCount g st.discovered ≤ fuel) :
    ∀ x, x ∈ (discoverStep (discoverWithPreexisting g fuel) a l0 st).discovered →
      x ∉ st.discovered →
      keyRecordedAt g (discoverStep (discoverWithPreexisting g fuel) a l0 st).discoveredLinks x := by
  intro x hx hnx
  unfold discoverStep at hx ⊢
  by_cases h1 : l0.type ≠ "preexisting"
  · rw [if_pos h1] at hx ⊢
    exact absurd hx hnx
  · rw [if_neg h1] at hx ⊢
    by_cases h2 : l0.source = a
    · rw [if_pos h2] at hx ⊢
      by_cases h3 : l0.target ∉ st.discovered
      · rw [if_pos h3] at hx ⊢
        have hlt : undiscCount g (l0.target :: st.discovered) < fuel :=
          lt_of_lt_of_le (undiscCount_lt (mem_linkEndpoints hl0).2 h3) hcount
        exact hdwp l0.target (some a) (some l0) st hlt x hx hnx
      · rw [if_neg h3] at hx ⊢
        rw [discoverLink_discovered] at hx
        exact absurd hx hnx
    · rw [if_neg h2] at hx ⊢
      by_cases h4 : l0.target = a ∧ l0.oneWay = false
      · rw [if_pos h4] at hx ⊢
        by_cases h5 : l0.source ∉ st.discovered
        · rw [if_pos h5] at hx ⊢
          have hlt : undiscCount g (l0.source :: st.discovered) < fuel :=
            lt_of_lt_of_le (undiscCount_lt (mem_linkEndpoints hl0).1 h5) hcount
          exact hdwp l0.source (some a) (some l0) st hlt x hx hnx
        · rw [if_neg h5] at hx ⊢
          rw [discoverLink_discovered] at hx
          exact absurd hx hnx
      · rw [if_neg h4] at hx ⊢
        exact absurd hx hnx

theorem processLinks_new_keys (g : GraphData) (fuel : Nat)
    (hdwp : ∀ (a : String) (f : Option String) (v : Option Link) (st : ExplorationState),
      undiscCount g (a :: st.discovered) < fuel →
      ∀ x, x ∈ (discoverWithPreexisting g fuel a f v st).discovered → x ∉ st.discovered →
        keyRecordedAt g (discoverWithPreexisting g fuel a f v st).discoveredLinks x)
    (a : String) :
    ∀ (ls : List Link), (∀ l ∈ ls, l ∈ g.links) → ∀ (st : ExplorationState),
      undiscCount g st.discovered ≤ fuel →
      ∀ x, x ∈ (processLinks (discoverWithPreexisting g fuel) a ls st).discovered →
        x ∉ st.discovered →
        keyRecordedAt g
          (processLinks (discoverWithPreexisting g fuel) a ls st).discoveredLinks x
  | [], _, _, _ => fun _ hx hnx => absurd hx hnx
  | l0 :: ls, hsub, st, hcount => fun x hx hnx => by
      have hsub' : ∀ l' ∈ ls, l' ∈ g.links :=
        fun l' h => hsub l' (List.mem_cons_of_mem _ h)
      have hstep := discoverStep_mono (dwp_mono g fuel) a l0 st
      have hcount' : undiscCount g
          (discoverStep (discoverWithPreexisting g fuel) a l0 st).discovered ≤ fuel :=
        le_trans (undiscCount_le_of_subset (fun y hy => hstep.1 hy)) hcount
      by_cases hx1 : x ∈ (discoverStep (discoverWithPreexisting g fuel) a l0 st).discovered
      · have hkeys := discoverStep_new_keys g fuel hdwp
          (hsub l0 (List.mem_cons_self _ _)) hcount x hx1 hnx
        exact keyRecordedAt_mono
          (fun k hk => (processLinks_mono (dwp_mono g fuel) a ls _).2.1 hk) hkeys
      · exact processLinks_new_keys g fuel hdwp a ls hsub' _ hcount' x hx hx1

theorem dwp_new_keys (g : GraphData) (hWF : WFGraph g) :
    ∀ (fuel : Nat) (a : String) (f : Option String) (v : Option Link)
      (st : ExplorationState),
      undiscCount g (a :: st.discovered) < fuel →
      ∀ x, x ∈ (discoverWithPreexisting g fuel a f v st).discovered → x ∉ st.discovered →
        keyRecordedAt g (discoverWithPreexisting g fuel a f v st).discoveredLinks x
  | 0 => fun a f v st hcount => absurd hcount (Nat.not_lt_zero _)
  | fuel + 1 => fun a f v st hcount x hx hnx => by
      unfold discoverWithPreexisting at hx ⊢
      dsimp only at hx ⊢
      by_cases hmem : a ∈ st.discovered
      · rw [if_pos hmem] at hx ⊢
        rw [recordFromLink_discovered] at hx
        exact absurd hx hnx
      · rw [if_neg hmem] at hx ⊢
        have hdisc2 : (discoverNode (recordFromLink st a f v) a).discovered =
            addToSet st.discovered a := by
          unfold discoverNode
          rw [recordFromLink_discovered]
        have hcong : undiscCount g (addToSet st.discovered a) =
            undiscCount g (a :: st.discovered) :=
          undiscCount_congr (fun y => by rw [mem_addToSet, List.mem_cons])
        have hc2 : undiscCount g
            (discoverNode (recordFromLink st a f v) a).discovered ≤ fuel := by
          rw [hdisc2, hcong]
          omega
        by_cases hx2 : x = a
        · subst hx2
          intro l hl hpre
          refine ⟨fun hsrc => ?_, fun htgt how => ?_⟩
          · have hk := (processLinks_area_keys g hWF fuel x g.links (fun _ h => h) _ hc2
              l hl hpre).1 hsrc
            exact ⟨hk.1, hk.2⟩
          · exact (processLinks_area_keys g hWF fuel x g.links (fun _ h => h) _ hc2
              l hl hpre).2 htgt how
        · have hx3 : x ∉ (discoverNode (recordFromLink st a f v) a).discovered := by
            rw [hdisc2]
            intro hxx
            rcases mem_addToSet.mp hxx with h | h
            · exact hx2 h
            · exact hnx h
          exact processLinks_new_keys g fuel (dwp_new_keys g hWF fuel) a g.links
            (fun _ h => h) _ hc2 x hx hx3

/-! Newly discovered zones are reachable from the discovery root through
preexisting links. -/

theorem discoverStep_reach_sub (g : GraphData) (fuel : Nat)
    (hdwp : ∀ (a : String) (f : Option String) (v : Option Link) (st : ExplorationState)
      (r : String), PreReach g r a →
      ∀ x, x ∈ (discoverWithPreexisting g fuel a f v st).discovered → x ∉ st.discovered →
        PreReach g r x)
    {a : String} {l0 : Link} {st : ExplorationState} {r : String}
    (hl0 : l0 ∈ g.links) (hr : PreReach g r a) :
    ∀ x, x ∈ (discoverStep (discoverWithPreexisting g fuel) a l0 st).discovered →
      x ∉ st.discovered → PreReach g r x := by
  intro x hx hnx
  unfold discoverStep at hx
  by_cases h1 : l0.type ≠ "preexisting"
  · rw [if_pos h1] at hx
    exact absurd hx hnx
  · rw [if_neg h1] at hx
    have hpre : l0.type = "preexisting" := not_not.mp h1
    by_cases h2 : l0.source = a
    · rw [if_pos h2] at hx
      by_cases h3 : l0.target ∉ st.discovered
      · rw [if_pos h3] at hx
        exact hdwp l0.target (some a) (some l0) st r
          (PreReach.fwd hr hl0 hpre h2) x hx hnx
      · rw [if_neg h3] at hx
        rw [discoverLink_discovered] at hx
        exact absurd hx hnx
    · rw [if_neg h2] at hx
      by_cases h4 : l0.target = a ∧ l0.oneWay = false
      · rw [if_pos h4] at hx
        by_cases h5 : l0.source ∉ st.discovered
        · rw [if_pos h5] at hx
          exact hdwp l0.source (some a) (some l0) st r
            (PreReach.back hr hl0 hpre h4.1 h4.2) x hx hnx
        · rw [if_neg h5] at hx
          rw [discoverLink_discovered] at hx
          exact absurd hx hnx
      · rw [if_neg h4] at hx
        exact absurd hx hnx

theorem processLinks_reach_sub (g : GraphData) (fuel : Nat)
    (hdwp : ∀ (a : String) (f : Option String) (v : Option Link) (st : ExplorationState)
      (r : String), PreReach g r a →
      ∀ x, x ∈ (discoverWithPreexisting g fuel a f v st).discovered → x ∉ st.discovered →
        PreReach g r x)
    (a : String) (r : String) (hr : PreReach g r a) :
    ∀ (ls : List Link), (∀ l ∈ ls, l ∈ g.links) → ∀ (st : ExplorationState),
      ∀ x, x ∈ (processLinks (discoverWithPreexisting g fuel) a ls st).discovered →
        x ∉ st.discovered → PreReach g r x
  | [], _, _ => fun _ hx hnx => absurd hx hnx
  | l0 :: ls, hsub, st => fun x hx hnx => by
      have hsub' : ∀ l' ∈ ls, l' ∈ g.links :=
        fun l' h => hsub l' (List.mem_cons_of_mem _ h)
      by_cases hx1 : x ∈ (discoverStep (discoverWithPreexisting g fuel) a l0 st).discovered
      · exact discoverStep_reach_sub g fuel hdwp (hsub l0 (List.mem_cons_self _ _)) hr
          x hx1 hnx
      · exact processLinks_reach_sub g fuel hdwp a r hr ls hsub' _ x hx hx1

theorem dwp_reach_sub (g : GraphData) :
    ∀ (fuel : Nat) (a : String) (f : Option String) (v : Option Link)
      (st : ExplorationState) (r : String), PreReach g r a →
      ∀ x, x ∈ (discoverWithPreexisting g fuel a f v st).discovered → x ∉ st.discovered →
        PreReach g r x
  | 0 => fun a f v st r hr x hx hnx => absurd hx hnx
  | fuel + 1 => fun a f v st r hr x hx hnx => by
      unfold discoverWithPreexisting at hx
      dsimp only at hx
      by_cases hmem : a ∈ st.discovered
      · rw [if_pos hmem] at hx
        rw [recordFromLink_discovered] at hx
        exact absurd hx hnx
      · rw [if_neg hmem] at hx
        by_cases hx2 : x = a
        · exact hx2 ▸ hr
        · have hx3 : x ∉ (discoverNode (recordFromLink st a f v) a).discovered := by
            have hdisc2 : (discoverNode (recordFromLink st a f v) a).discovered =
                addToSet st.discovered a := by
              unfold discoverNode
              rw [recordFromLink_discovered]
            rw [hdisc2]
            intro hxx
            rcases mem_addToSet.mp hxx with h | h
            · exact hx2 h
            · exact hnx h
          exact processLinks_reach_sub g fuel (dwp_reach_sub g fuel) a r hr g.links
            (fun _ h => h) _ x hx hx3

/-! Propagation produces a closed, fully key-recorded state. -/

theorem undiscCount_le_fuel (g : GraphData) (S : List String) :
    undiscCount g S ≤ discoveryFuel g :=
  le_trans (List.length_filter_le _ _) (Nat.le_succ _)

theorem undiscCount_lt_fuel (g : GraphData) (S : List String) :
    undiscCount g S < discoveryFuel g :=
  Nat.lt_succ_of_le (List.length_filter_le _ _)

theorem propagateList_closed (g : GraphData) :
    ∀ (L : List String) (st : ExplorationState),
      ∀ x ∈ (propagateList g L st).discovered, (x ∈ L ∨ x ∉ st.discovered) →
        closedAt g (propagateList g L st).discovered x
  | [], st => fun x hx hcase => by
      rcases hcase with h | h
      · exact absurd h (List.not_mem_nil x)
      · exact absurd hx h
  | a :: L, st => fun x hx hcase => by
      have hcount : undiscCount g st.discovered ≤ discoveryFuel g := undiscCount_le_fuel g _
      by_cases hx1 : x ∈ (propagateOne g a st).discovered
      · by_cases hxL : x ∈ L
        · exact propagateList_closed g L _ x hx (Or.inl hxL)
        · rcases hcase with hL | hnew
          · have hxa : x = a := by
              rcases List.mem_cons.mp hL with h | h
              · exact h
              · exact absurd h hxL
            subst hxa
            have hac : closedAt g (propagateOne g x st).discovered x := by
              intro l hl hpre
              exact processLinks_area_closed g (discoveryFuel g) x g.links
                (fun _ h => h) st hcount l hl hpre
            exact closedAt_mono (fun y hy => (propagateList_mono g L _).1 hy) hac
          · have hnc := processLinks_new_closed g (discoveryFuel g)
              (dwp_new_closed g (discoveryFuel g)) a g.links (fun _ h => h) st hcount
              x hx1 hnew
            exact closedAt_mono (fun y hy => (propagateList_mono g L _).1 hy) hnc
      · exact propagateList_closed g L _ x hx (Or.inr hx1)

theorem propagateList_keys (g : GraphData) (hWF : WFGraph g) :
    ∀ (L : List String) (st : ExplorationState),
      ∀ x ∈ (propagateList g L st).discovered, (x ∈ L ∨ x ∉ st.discovered) →
        keyRecordedAt g (propagateList g L st).discoveredLinks x
  | [], st => fun x hx hcase => by
      rcases hcase with h | h
      · exact absurd h (List.not_mem_nil x)
      · exact absurd hx h
  | a :: L, st => fun x hx hcase => by
      have hcount : undiscCount g st.discovered ≤ discoveryFuel g := undiscCount_le_fuel g _
      by_cases hx1 : x ∈ (propagateOne g a st).discovered
      · by_cases hxL : x ∈ L
        · exact propagateList_keys g hWF L _ x hx (Or.inl hxL)
        · rcases hcase with hL | hnew
          · have hxa : x = a := by
              rcases List.mem_cons.mp hL with h | h
              · exact h
              · exact absurd h hxL
            subst hxa
            have hak : keyRecordedAt g (propagateOne g x st).discoveredLinks x := by
              intro l hl hpre
              refine ⟨fun hsrc => ?_, fun htgt how => ?_⟩
              · exact (processLinks_area_keys g hWF (discoveryFuel g) x g.links
                  (fun _ h => h) st hcount l hl hpre).1 hsrc
              · exact (processLinks_area_keys g hWF (discoveryFuel g) x g.links
                  (fun _ h => h) st hcount l hl hpre).2 htgt how
            exact keyRecordedAt_mono (fun k hk => (propagateList_mono g L _).2.1 hk) hak
          · have hnk := processLinks_new_keys g (discoveryFuel g)
              (dwp_new_keys g hWF (discoveryFuel g)) a g.links (fun _ h => h) st hcount
              x hx1 hnew
            exact keyRecordedAt_mono (fun k hk => (propagateList_mono g L _).2.1 hk) hnk
      · exact propagateList_keys g hWF L _ x hx (Or.inr hx1)

theorem propagate_closed (g : GraphData) (st : ExplorationState) :
    ∀ x ∈ (propagatePreexistingDiscoveries g st).discovered,
      closedAt g (propagatePreexistingDiscoveries g st).discovered x := by
  intro x hx
  apply propagateList_closed g st.discovered st x hx
  by_cases h : x ∈ st.discovered
  · exact Or.inl h
  · exact Or.inr h

theorem propagate_keys (g : GraphData) (hWF : WFGraph g) (st : ExplorationState) :
    ∀ x ∈ (propagatePreexistingDiscoveries g st).discovered,
      keyRecordedAt g (propagatePreexistingDiscoveries g st).discoveredLinks x := by
  intro x hx
  apply propagateList_keys g hWF st.discovered st x hx
  by_cases h : x ∈ st.discovered
  · exact Or.inl h
  · exact Or.inr h

/-! A propagation pass over a closed, fully recorded state is the
identity. -/

theorem discoverStep_id_of_closed_keys {g : GraphData} {fuel : Nat} {a : String}
    {l : Link} {st : ExplorationState} (hl : l ∈ g.links)
    (hclosed : closedAt g st.discovered a)
    (hkeys : keyRecordedAt g st.discoveredLinks a) :
    discoverStep (discoverWithPreexisting g fuel) a l st = st := by
  unfold discoverStep
  by_cases h1 : l.type ≠ "preexisting"
  · rw [if_pos h1]
  · have hpre : l.type = "preexisting" := not_not.mp h1
    rw [if_neg h1]
    by_cases h2 : l.source = a
    · rw [if_pos h2]
      have htarget : l.target ∈ st.discovered := (hclosed l hl hpre).1 h2
      rw [if_neg (not_not_intro htarget)]
      apply discoverLink_eq_self
      · exact ((hkeys l hl hpre).1 h2).1
      · intro hb
        rw [Bool.not_eq_true'] at hb
        exact ((hkeys l hl hpre).1 h2).2 hb
    · rw [if_neg h2]
      by_cases h4 : l.target = a ∧ l.oneWay = false
      · rw [if_pos h4]
        have hsource : l.source ∈ st.discovered := (hclosed l hl hpre).2 h4.1 h4.2
        rw [if_neg (not_not_intro hsource)]
        apply discoverLink_eq_self
        · exact ((hkeys l hl hpre).2 h4.1 h4.2).1
        · exact fun _ => ((hkeys l hl hpre).2 h4.1 h4.2).2
      · rw [if_neg h4]

theorem processLinks_id_of_closed_keys (g : GraphData) (fuel : Nat) (a : String) :
    ∀ (ls : List Link), (∀ l ∈ ls, l ∈ g.links) → ∀ (st : ExplorationState),
      closedAt g st.discovered a → keyRecordedAt g st.discoveredLinks a →
      processLinks (discoverWithPreexisting g fuel) a ls st = st
  | [], _, _, _, _ => rfl
  | l :: ls, hsub, st, hclosed, hkeys => by
      show processLinks (discoverWithPreexisting g fuel) a ls
        (discoverStep (discoverWithPreexisting g fuel) a l st) = st
      rw [discoverStep_id_of_closed_keys (hsub l (List.mem_cons_self _ _)) hclosed hkeys]
      exact processLinks_id_of_closed_keys g fuel a ls
        (fun l' h => hsub l' (List.mem_cons_of_mem _ h)) st hclosed hkeys

theorem propagateList_id (g : GraphData) :
    ∀ (L : List String) (st : ExplorationState),
      (∀ a ∈ L, closedAt g st.discovered a ∧ keyRecordedAt g st.discoveredLinks a) →
      propagateList g L st = st
  | [], _, _ => rfl
  | a :: L, st, h => by
      show propagateList g L (propagateOne g a st) = st
      have hone : propagateOne g a st = st :=
        processLinks_id_of_closed_keys g (discoveryFuel g) a g.links (fun _ hh => hh) st
          (h a (List.mem_cons_self _ _)).1 (h a (List.mem_cons_self _ _)).2
      rw [hone]
      exact propagateList_id g L st (fun a' ha' => h a' (List.mem_cons_of_mem _ ha'))

/-- C1: on a state whose discovered set is closed under preexisting
propagation (as every engine-produced state is), discovering a fresh
zone makes the discovered set exactly the old set united with everything
reachable from the new zone through traversable preexisting links -
random links never propagate - and propagatePreexistingDiscoveries is
idempotent: a second pass changes nothing. -/
theorem discover_closure_and_propagate_idempotent (g : GraphData)
    (st : ExplorationState) (z : String) (f : Option String) (v : Option Link)
    (hWF : WFGraph g) (hclosed : PreClosed g st.discovered) (hz : z ∉ st.discovered) :
    (∀ x, x ∈ (discoverArea g z f v st).discovered ↔
      x ∈ st.discovered ∨ PreReach g z x) ∧
    (∀ st2, propagatePreexistingDiscoveries g (propagatePreexistingDiscoveries g st2) =
      propagatePreexistingDiscoveries g st2) := by
  constructor
  · intro x
    constructor
    · intro hx
      by_cases hmem : x ∈ st.discovered
      · exact Or.inl hmem
      · exact Or.inr (dwp_reach_sub g (discoveryFuel g) z f v st z PreReach.refl x hx hmem)
    · intro hx
      rcases hx with hmem | hreach
      · exact (dwp_mono g (discoveryFuel g) z f v st).1 hmem
      · induction hreach with
        | refl => exact dwp_mem_area g (linkEndpoints g.links).length z f v st
        | @fwd b l hab hl hpre hsrc ih =>
            by_cases hb : b ∈ st.discovered
            · exact (dwp_mono g (discoveryFuel g) z f v st).1
                ((hclosed l hl hpre).1 (hsrc ▸ hb))
            · have hc := dwp_new_closed g (discoveryFuel g) z f v st
                (undiscCount_lt_fuel g _) b ih hb
              exact (hc l hl hpre).1 hsrc
        | @back b l hab hl hpre htgt how ih =>
            by_cases hb : b ∈ st.discovered
            · exact (dwp_mono g (discoveryFuel g) z f v st).1
                ((hclosed l hl hpre).2 how (htgt ▸ hb))
            · have hc := dwp_new_closed g (discoveryFuel g) z f v st
                (undiscCount_lt_fuel g _) b ih hb
              exact (hc l hl hpre).2 htgt how
  · intro st2
    show propagateList g (propagatePreexistingDiscoveries g st2).discovered
      (propagatePreexistingDiscoveries g st2) = propagatePreexistingDiscoveries g st2
    apply propagateList_id
    intro a ha
    exact ⟨propagate_closed g st2 a ha, propagate_keys g hWF st2 a ha⟩

/-- Witness for C1: discovering Limgrave (not previously discovered) on
the closed initial scenario state; with no preexisting link out of
Limgrave the closure adds just Limgrave itself, and a double propagation
pass equals a single one. -/
theorem discover_closure_and_propagate_idempotent_witness :
    WFGraph gScenario ∧ PreClosed gScenario stScenario.discovered ∧
    "Limgrave" ∉ stScenario.discovered ∧
    ("Limgrave" ∈ (discoverArea gScenario "Limgrave" (some "Roundtable Hold")
        (some linkRT) stScenario).discovered ↔
      "Limgrave" ∈ stScenario.discovered ∨ PreReach gScenario "Limgrave" "Limgrave") ∧
    propagatePreexistingDiscoveries gScenario
        (propagatePreexistingDiscoveries gScenario stScenario2) =
      propagatePreexistingDiscoveries gScenario stScenario2 :=
  ⟨by decide, by decide, by decide,
   (discover_closure_and_propagate_idempotent gScenario stScenario "Limgrave"
      (some "Roundtable Hold") (some linkRT) (by decide) (by decide) (by decide)).1
     "Limgrave",
   (discover_closure_and_propagate_idempotent gScenario stScenario "Limgrave"
      (some "Roundtable Hold") (some linkRT) (by decide) (by decide) (by decide)).2
     stScenario2⟩

/-! Placeholder synthesis (C7). -/

theorem placeholderId_data (a b : String) :
    (placeholderId a b).data = '?' :: '?' :: '?' :: '_' :: (a.data ++ '_' :: b.data) := by
  show ((("???_" ++ a) ++ "_") ++ b).data = _
  rw [String.data_append, String.data_append, String.data_append]
  simp

theorem placeholderId_inj {a b a' b' : String} (ha : NoUnderscore a)
    (ha' : NoUnderscore a') (h : placeholderId a b = placeholderId a' b') :
    a = a' ∧ b = b' := by
  have hd : (placeholderId a b).data = (placeholderId a' b').data := by rw [h]
  rw [placeholderId_data, placeholderId_data] at hd
  simp only [List.cons.injEq, true_and] at hd
  have := append_sep_inj ha ha' hd
  exact ⟨String.ext this.1, String.ext this.2⟩

theorem pushPlaceholder_subset (phs : List PlaceholderNode) (p : PlaceholderNode) :
    phs ⊆ pushPlaceholder phs p := by
  unfold pushPlaceholder
  split
  · exact fun _ h => h
  · exact fun _ h => List.mem_append_left _ h

theorem mem_pushPlaceholder {phs : List PlaceholderNode} {p q : PlaceholderNode}
    (h : q ∈ pushPlaceholder phs p) : q ∈ phs ∨ q = p := by
  unfold pushPlaceholder at h
  split at h
  · exact Or.inl h
  · rcases List.mem_append.mp h with h2 | h2
    · exact Or.inl h2
    · exact Or.inr (List.mem_singleton.mp h2)

theorem mem_pushPlaceholder_self {phs : List PlaceholderNode} {p : PlaceholderNode}
    (h : ∀ q ∈ phs, q.id = p.id → q = p) : p ∈ pushPlaceholder phs p := by
  unfold pushPlaceholder
  split
  · next hany =>
    obtain ⟨q, hq, hqid⟩ := List.any_eq_true.mp hany
    rw [beq_iff_eq] at hqid
    rw [← h q hq hqid]
    exact hq
  · exact List.mem_append_right _ (List.mem_singleton.mpr rfl)

theorem canon_unique {disc : List String} {p : PlaceholderNode} (hp : CanonPh disc p)
    {a b : String} (hU : NoUnderscore a) (hid : p.id = placeholderId a b) :
    p = ⟨placeholderId a b, b, decide (a ∈ disc ∧ b ∈ disc), a⟩ := by
  obtain ⟨a', b', hU', _, rfl⟩ := hp
  have hid' : placeholderId a' b' = placeholderId a b := hid
  obtain ⟨rfl, rfl⟩ := placeholderId_inj hU' hU hid'
  rfl

theorem synthStep_fst_subset (disc dl : List String) (acc : List PlaceholderNode ×
    List ProcessedLink) (l : Link) : acc.1 ⊆ (synthStep disc dl acc l).1 := by
  unfold synthStep
  by_cases h1 : l.source ∈ disc ∧ l.target ∈ disc
  · rw [if_pos h1]
    by_cases h2 : makeLinkId l.source l.target ∈ dl ∨ makeLinkId l.target l.source ∈ dl
    · rw [if_pos h2]
      exact fun _ h => h
    · rw [if_neg h2]
      dsimp only
      by_cases h3 : l.oneWay = false
      · rw [if_pos h3]
        exact fun q hq => pushPlaceholder_subset _ _ (pushPlaceholder_subset _ _ hq)
      · rw [if_neg h3]
        exact fun q hq => pushPlaceholder_subset _ _ hq
  · rw [if_neg h1]
    by_cases h4 : l.source ∈ disc ∧ l.target ∉ disc
    · rw [if_pos h4]
      exact fun q hq => pushPlaceholder_subset _ _ hq
    · rw [if_neg h4]
      by_cases h5 : l.source ∉ disc ∧ l.target ∈ disc ∧ l.oneWay = false
      · rw [if_pos h5]
        exact fun q hq => pushPlaceholder_subset _ _ hq
      · rw [if_neg h5]
        exact fun _ h => h

theorem synthStep_snd_subset (disc dl : List String) (acc : List PlaceholderNode ×
    List ProcessedLink) (l : Link) : acc.2 ⊆ (synthStep disc dl acc l).2 := by
  unfold synthStep
  by_cases h1 : l.source ∈ disc ∧ l.target ∈ disc
  · rw [if_pos h1]
    by_cases h2 : makeLinkId l.source l.target ∈ dl ∨ makeLinkId l.target l.source ∈ dl
    · rw [if_pos h2]
      exact fun _ h => List.mem_append_left _ h
    · rw [if_neg h2]
      dsimp only
      by_cases h3 : l.oneWay = false
      · rw [if_pos h3]
        exact fun q hq => List.mem_append_left _ (List.mem_append_left _ hq)
      · rw [if_neg h3]
        exact fun q hq => List.mem_append_left _ hq
  · rw [if_neg h1]
    by_cases h4 : l.source ∈ disc ∧ l.target ∉ disc
    · rw [if_pos h4]
      exact fun q hq => List.mem_append_left _ hq
    · rw [if_neg h4]
      by_cases h5 : l.source ∉ disc ∧ l.target ∈ disc ∧ l.oneWay = false
      · rw [if_pos h5]
        exact fun q hq => List.mem_append_left _ hq
      · rw [if_neg h5]
        exact fun _ h => h

theorem synthStep_gen (disc dl : List String) (l : Link)
    (acc : List PlaceholderNode × List ProcessedLink) :
    ∀ p ∈ (synthStep disc dl acc l).1, p ∈ acc.1 ∨ generates disc dl l p := by
  intro p hp
  unfold synthStep at hp
  by_cases h1 : l.source ∈ disc ∧ l.target ∈ disc
  · rw [if_pos h1] at hp
    by_cases h2 : makeLinkId l.source l.target ∈ dl ∨ makeLinkId l.target l.source ∈ dl
    · rw [if_pos h2] at hp
      exact Or.inl hp
    · rw [if_neg h2] at hp
      dsimp only at hp
      have hk1 : makeLinkId l.source l.target ∉ dl := fun h => h2 (Or.inl h)
      have hk2 : makeLinkId l.target l.source ∉ dl := fun h => h2 (Or.inr h)
      by_cases h3 : l.oneWay = false
      · rw [if_pos h3] at hp
        rcases mem_pushPlaceholder hp with hp2 | rfl
        · rcases mem_pushPlaceholder hp2 with hp3 | rfl
          · exact Or.inl hp3
          · exact Or.inr (Or.inl ⟨h1.1, h1.2, hk1, hk2, Or.inl rfl⟩)
        · exact Or.inr (Or.inl ⟨h1.1, h1.2, hk1, hk2, Or.inr ⟨h3, rfl⟩⟩)
      · rw [if_neg h3] at hp
        rcases mem_pushPlaceholder hp with hp2 | rfl
        · exact Or.inl hp2
        · exact Or.inr (Or.inl ⟨h1.1, h1.2, hk1, hk2, Or.inl rfl⟩)
  · rw [if_neg h1] at hp
    by_cases h4 : l.source ∈ disc ∧ l.target ∉ disc
    · rw [if_pos h4] at hp
      rcases mem_pushPlaceholder hp with hp2 | rfl
      · exact Or.inl hp2
      · exact Or.inr (Or.inr (Or.inl ⟨h4.1, h4.2, rfl⟩))
    · rw [if_neg h4] at hp
      by_cases h5 : l.source ∉ disc ∧ l.target ∈ disc ∧ l.oneWay = false
      · rw [if_pos h5] at hp
        rcases mem_pushPlaceholder hp with hp2 | rfl
        · exact Or.inl hp2
        · exact Or.inr (Or.inr (Or.inr ⟨h5.1, h5.2.1, h5.2.2, rfl⟩))
      · rw [if_neg h5] at hp
        exact Or.inl hp

theorem foldl_synth_gen (disc dl : List String) :
    ∀ (ls : List Link) (acc : List PlaceholderNode × List ProcessedLink),
      ∀ p ∈ (ls.foldl (synthStep disc dl) acc).1,
        p ∈ acc.1 ∨ ∃ l ∈ ls, generates disc dl l p
  | [], _ => fun _ hp => Or.inl hp
  | l0 :: ls, acc => fun p hp => by
      rcases foldl_synth_gen disc dl ls (synthStep disc dl acc l0) p hp with h | ⟨l, hl, hg⟩
      · rcases synthStep_gen disc dl l0 acc p h with h2 | h2
        · exact Or.inl h2
        · exact Or.inr ⟨l0, List.mem_cons_self _ _, h2⟩
      · exact Or.inr ⟨l, List.mem_cons_of_mem _ hl, hg⟩

theorem generates_canonical {disc dl : List String} {l : Link} {p : PlaceholderNode}
    (hUs : NoUnderscore l.source) (hUt : NoUnderscore l.target)
    (h : generates disc dl l p) : CanonPh disc p := by
  rcases h with ⟨hs, ht, _, _, hrec | ⟨how, hrec⟩⟩ | ⟨hs, ht, hrec⟩ | ⟨hs, ht, how, hrec⟩
  · refine ⟨l.source, l.target, hUs, hUt, ?_⟩
    rw [hrec]
    have hd : decide (l.source ∈ disc ∧ l.target ∈ disc) = true := decide_eq_true ⟨hs, ht⟩
    rw [hd]
  · refine ⟨l.target, l.source, hUt, hUs, ?_⟩
    rw [hrec]
    have hd : decide (l.target ∈ disc ∧ l.source ∈ disc) = true := decide_eq_true ⟨ht, hs⟩
    rw [hd]
  · refine ⟨l.source, l.target, hUs, hUt, ?_⟩
    rw [hrec]
    have hd : decide (l.source ∈ disc ∧ l.target ∈ disc) = false :=
      decide_eq_false (fun hcon => ht hcon.2)
    rw [hd]
  · refine ⟨l.target, l.source, hUt, hUs, ?_⟩
    rw [hrec]
    have hd : decide (l.target ∈ disc ∧ l.source ∈ disc) = false :=
      decide_eq_false (fun hcon => hs hcon.2)
    rw [hd]

theorem synthStep_canon {disc dl : List String} {l : Link}
    (hUs : NoUnderscore l.source) (hUt : NoUnderscore l.target)
    {acc : List PlaceholderNode × List ProcessedLink}
    (hc : ∀ p ∈ acc.1, CanonPh disc p) :
    ∀ p ∈ (synthStep disc dl acc l).1, CanonPh disc p := fun p hp =>
  (synthStep_gen disc dl l acc p hp).elim (hc p) (fun hg => generates_canonical hUs hUt hg)

theorem synthStep_mem_fwd {disc dl : List String} {l : Link}
    {acc : List PlaceholderNode × List ProcessedLink}
    (hc : ∀ p ∈ acc.1, CanonPh disc p)
    (hUs : NoUnderscore l.source) (hUt : NoUnderscore l.target)
    (hs : l.source ∈ disc) (ht : l.target ∈ disc)
    (hk1 : makeLinkId l.source l.target ∉ dl) (hk2 : makeLinkId l.target l.source ∉ dl) :
    (⟨placeholderId l.source l.target, l.target, true, l.source⟩ : PlaceholderNode) ∈
      (synthStep disc dl acc l).1 ∧
    (l.oneWay = false →
      (⟨placeholderId l.target l.source, l.source, true, l.target⟩ : PlaceholderNode) ∈
        (synthStep disc dl acc l).1) := by
  have hflag : decide (l.source ∈ disc ∧ l.target ∈ disc) = true := decide_eq_true ⟨hs, ht⟩
  have hflag' : decide (l.target ∈ disc ∧ l.source ∈ disc) = true := decide_eq_true ⟨ht, hs⟩
  have hfwdmem : (⟨placeholderId l.source l.target, l.target, true, l.source⟩ :
      PlaceholderNode) ∈ pushPlaceholder acc.1
        ⟨placeholderId l.source l.target, l.target, true, l.source⟩ := by
    apply mem_pushPlaceholder_self
    intro q hq hqid
    have hu := canon_unique (hc q hq) hUs hqid
    rw [hu, hflag]
  unfold synthStep
  rw [if_pos ⟨hs, ht⟩, if_neg (fun h => h.elim hk1 hk2)]
  dsimp only
  by_cases how : l.oneWay = false
  · rw [if_pos how]
    constructor
    · exact pushPlaceholder_subset _ _ hfwdmem
    · intro _
      apply mem_pushPlaceholder_self
      intro q hq hqid
      rcases mem_pushPlaceholder hq with hq2 | rfl
      · have hu := canon_unique (hc q hq2) hUt hqid
        rw [hu, hflag']
      · have hqid' : placeholderId l.source l.target = placeholderId l.target l.source :=
          hqid
        obtain ⟨hst, _⟩ := placeholderId_inj hUs hUt hqid'
        rw [hst]
  · rw [if_neg how]
    exact ⟨hfwdmem, fun hc2 => absurd hc2 how⟩

theorem synthStep_mem_real {disc dl : List String} {l : Link}
    {acc : List PlaceholderNode × List ProcessedLink}
    (hs : l.source ∈ disc) (ht : l.target ∈ disc)
    (hk : makeLinkId l.source l.target ∈ dl ∨ makeLinkId l.target l.source ∈ dl) :
    (⟨l, l.source, l.target⟩ : ProcessedLink) ∈ (synthStep disc dl acc l).2 := by
  unfold synthStep
  rw [if_pos ⟨hs, ht⟩, if_pos hk]
  exact List.mem_append_right _ (List.mem_singleton.mpr rfl)

theorem foldl_synth_fst_subset (disc dl : List String) :
    ∀ (ls : List Link) (acc : List PlaceholderNode × List ProcessedLink),
      acc.1 ⊆ (ls.foldl (synthStep disc dl) acc).1
  | [], _ => fun _ h => h
  | l0 :: ls, acc => fun p hp =>
      foldl_synth_fst_subset disc dl ls (synthStep disc dl acc l0)
        (synthStep_fst_subset disc dl acc l0 hp)

theorem foldl_synth_snd_subset (disc dl : List String) :
    ∀ (ls : List Link) (acc : List PlaceholderNode × List ProcessedLink),
      acc.2 ⊆ (ls.foldl (synthStep disc dl) acc).2
  | [], _ => fun _ h => h
  | l0 :: ls, acc => fun p hp =>
      foldl_synth_snd_subset disc dl ls (synthStep disc dl acc l0)
        (synthStep_snd_subset disc dl acc l0 hp)

theorem foldl_synth_mem (disc dl : List String) :
    ∀ (ls : List Link), (∀ l' ∈ ls, NoUnderscore l'.source ∧ NoUnderscore l'.target) →
    ∀ (acc : List PlaceholderNode × List ProcessedLink),
      (∀ p ∈ acc.1, CanonPh disc p) →
    ∀ l ∈ ls,
      (l.source ∈ disc → l.target ∈ disc →
        makeLinkId l.source l.target ∉ dl → makeLinkId l.target l.source ∉ dl →
        ((⟨placeholderId l.source l.target, l.target, true, l.source⟩ : PlaceholderNode) ∈
            (ls.foldl (synthStep disc dl) acc).1 ∧
         (l.oneWay = false →
          (⟨placeholderId l.target l.source, l.source, true, l.target⟩ : PlaceholderNode) ∈
            (ls.foldl (synthStep disc dl) acc).1))) ∧
      (l.source ∈ disc → l.target ∈ disc →
        (makeLinkId l.source l.target ∈ dl ∨ makeLinkId l.target l.source ∈ dl) →
        (⟨l, l.source, l.target⟩ : ProcessedLink) ∈ (ls.foldl (synthStep disc dl) acc).2)
  | [], _, _, _ => fun l hl => absurd hl (List.not_mem_nil l)
  | l0 :: ls, hU, acc, hc => fun l hl => by
      have hU0 := hU l0 (List.mem_cons_self _ _)
      have hU' : ∀ l' ∈ ls, NoUnderscore l'.source ∧ NoUnderscore l'.target :=
        fun l' h => hU l' (List.mem_cons_of_mem _ h)
      have hc' : ∀ p ∈ (synthStep disc dl acc l0).1, CanonPh disc p :=
        synthStep_canon hU0.1 hU0.2 hc
      rcases List.mem_cons.mp hl with rfl | hl2
      · constructor
        · intro hs ht hk1 hk2
          have hmem := synthStep_mem_fwd hc hU0.1 hU0.2 hs ht hk1 hk2
          exact ⟨foldl_synth_fst_subset disc dl ls _ hmem.1,
            fun how => foldl_synth_fst_subset disc dl ls _ (hmem.2 how)⟩
        · intro hs ht hk
          exact foldl_synth_snd_subset disc dl ls _ (synthStep_mem_real hs ht hk)
      · exact foldl_synth_mem disc dl ls hU' _ hc' l hl2

/-- C7: in exploration mode, every link whose endpoints are both
discovered but whose key is recorded in neither direction yields a
forward placeholder (id built from source then target, anchored at the
source, flagged as an undiscovered link, standing in for the target even
though the target is visible elsewhere) plus a reverse placeholder
anchored at the target exactly when the link is not one-way; a link
whose key is recorded in either direction is shown as the real link; and
every synthesized placeholder originates from a link in one of the
placeholder-generating configurations. -/
theorem placeholder_synthesis_correct (disc dl : List String) (links : List Link)
    (hU : ∀ l ∈ links, NoUnderscore l.source ∧ NoUnderscore l.target) :
    (∀ l ∈ links,
      (l.source ∈ disc → l.target ∈ disc →
        makeLinkId l.source l.target ∉ dl → makeLinkId l.target l.source ∉ dl →
        ((⟨placeholderId l.source l.target, l.target, true, l.source⟩ : PlaceholderNode) ∈
            (synthesizePlaceholders disc dl links).1 ∧
         (l.oneWay = false →
          (⟨placeholderId l.target l.source, l.source, true, l.target⟩ : PlaceholderNode) ∈
            (synthesizePlaceholders disc dl links).1))) ∧
      (l.source ∈ disc → l.target ∈ disc →
        (makeLinkId l.source l.target ∈ dl ∨ makeLinkId l.target l.source ∈ dl) →
        (⟨l, l.source, l.target⟩ : ProcessedLink) ∈
          (synthesizePlaceholders disc dl links).2)) ∧
    (∀ p ∈ (synthesizePlaceholders disc dl links).1,
      ∃ l ∈ links, generates disc dl l p) := by
  constructor
  · exact foldl_synth_mem disc dl links hU ([], []) (fun p hp => absurd hp
      (List.not_mem_nil p))
  · intro p hp
    rcases foldl_synth_gen disc dl links ([], []) p hp with h | h
    · exact absurd h (List.not_mem_nil p)
    · exact h

/-- Witness for C7: zones A and B both discovered with an untraversed
bidirectional random link between them; both placeholders appear even
though each zone is independently visible. -/
theorem placeholder_synthesis_correct_witness :
    (∀ l ∈ gPlaceholder.links, NoUnderscore l.source ∧ NoUnderscore l.target) ∧
    ((⟨placeholderId "A" "B", "B", true, "A"⟩ : PlaceholderNode) ∈
      (synthesizePlaceholders ["Chapel of Anticipation", "A", "B"] []
        gPlaceholder.links).1 ∧
     (lAB.oneWay = false →
      (⟨placeholderId "B" "A", "A", true, "B"⟩ : PlaceholderNode) ∈
        (synthesizePlaceholders ["Chapel of Anticipation", "A", "B"] []
          gPlaceholder.links).1)) :=
  ⟨by decide,
   ((placeholder_synthesis_correct ["Chapel of Anticipation", "A", "B"] []
      gPlaceholder.links (by decide)).1 lAB (by decide)).1
     (by decide) (by decide) (by decide) (by decide)⟩

end ErFogVizu
